import Mathlib

/-!
Shallow embedding of the dependency-ordered scheduler of `django-devdata`
(`src/devdata/utils.py` and `src/devdata/engine.py`), together with theorems
checking the natural-language specification against it.

Conventions of the embedding:
* A Django model object is identified by an opaque model id (a `String`);
  everything the code reads off a model object (`_meta.app_label`, `__name__`,
  `_meta.object_name`, `natural_key.dependencies`, relational fields,
  many-to-many fields) is looked up through an `Env`, which plays the role of
  the Django app registry (`django.apps.apps`) and model metadata.
* Python exceptions are modelled by the `PyErr` type and `Except`.
* Python `dict`s keyed by strings are association lists with dict
  insert/overwrite semantics; Python `set`s of strings are lists used only
  through membership, so order and multiplicity never matter.
-/

namespace Devdata

/-- Python exceptions that the embedded code can raise.
`runtimeError names` stands for the `RuntimeError` raised by
`sort_model_strategies`, carrying the `"{app_label}.{object_name}"` strings
interpolated into its message, in message order.  `assertionError` stands for
`AssertionError("Reached impossible state.")` in `_export_concurrently`etc.
`unitError msg` stands for an arbitrary exception raised by a unit's runner
(`_export_one`), re-raised by the scheduler. -/
inductive PyErr where
  | valueError : PyErr
  | lookupError : PyErr
  | attributeError : PyErr
  | keyError : PyErr
  | runtimeError (stuckNames : List String) : PyErr
  | assertionError : PyErr
  | unitError (msg : String) : PyErr
deriving DecidableEq, Repr

instance {ε α : Type} [DecidableEq ε] [DecidableEq α] : DecidableEq (Except ε α) := by
  intro a b
  cases a with
  | error e =>
    cases b with
    | error f => exact decidable_of_iff (e = f) (by simp)
    | ok y => exact isFalse (by simp)
  | ok x =>
    cases b with
    | error f => exact isFalse (by simp)
    | ok y => exact decidable_of_iff (x = y) (by simp)

/-- A per-model strategy object, as far as the scheduler reads it:
its display `name` and its declared extra dependencies (`depends_on`,
a list of `"app.Model"` labels). -/
structure Strategy where
  name : String
  depends_on : List String
deriving DecidableEq, Repr

/-- What the Django registry knows about one model class.
`natural_key_deps = none` models a class without a `natural_key` attribute;
`some ds` models `getattr(model.natural_key, "dependencies", []) = ds`.
`fk_targets` lists `field.remote_field.model` for the fields of
`model._meta.fields` that have a truthy `remote_field` (as model ids).
`m2m_targets` lists, for each entry of `model._meta.many_to_many`, the pair
`(field.remote_field.model, field.remote_field.through._meta.auto_created)`. -/
structure ModelMeta where
  app_label : String
  object_name : String
  natural_key_deps : Option (List String)
  fk_targets : List String
  m2m_targets : List (String × Bool)
deriving DecidableEq, Repr

/-- The Django app registry: `get_model app name` resolves a model id (or
fails, modelling `LookupError`), and `meta` reads a model's metadata.
`meta` is total; it is only ever applied to ids returned by `get_model`. -/
structure Env where
  get_model : String → String → Option String
  meta : String → ModelMeta

/-- Python `app_model_label.split(".")`: split on every dot. -/
def pySplitDot (s : String) : List String :=
  (s.toList.splitOn '.').map (fun cs => String.mk cs)

/-- `utils.to_app_model_label`, applied to a model id:
`"{model._meta.app_label}.{model.__name__}"`.  (For the classes produced by
the registry, `__name__` and `_meta.object_name` coincide.) -/
def modelLabel (env : Env) (m : String) : String :=
  (env.meta m).app_label ++ "." ++ (env.meta m).object_name

/-- `utils.to_app_model_label` at a call site whose argument may be Python
`None` (as happens for unresolved strategy dependencies): attribute access on
`None` raises `AttributeError`. -/
def to_app_model_label (env : Env) : Option String → Except PyErr String
  | some m => .ok (modelLabel env m)
  | none => .error .attributeError

/-- `utils.to_model`: unpack `app_model_label.split(".")` into exactly two
parts (otherwise Python raises `ValueError`), then `apps.get_model`,
catching `LookupError` and returning `None`. -/
def to_model (env : Env) (label : String) : Except PyErr (Option String) :=
  match pySplitDot label with
  | [a, b] => .ok (env.get_model a b)
  | _ => .error .valueError

/-- `apps.get_model(dep)` with a single dotted argument (used for
`natural_key.dependencies`): splits into exactly two parts (`ValueError`
otherwise) and raises `LookupError` when the model is unknown. -/
def apps_get_model (env : Env) (label : String) : Except PyErr String :=
  match pySplitDot label with
  | [a, b] =>
    match env.get_model a b with
    | some m => .ok m
    | none => .error .lookupError
  | _ => .error .valueError

/-- The dependency list computed for one model inside
`sort_model_strategies` (lines 52-74 of `utils.py`): natural-key
dependencies (resolved through `apps.get_model`, which can raise), then
relational targets distinct from the model itself, then auto-created
many-to-many targets distinct from the model itself, then each strategy's
`depends_on` resolved through `to_model` (which yields Python `None`,
embedded as `Option.none`, for labels of uninstalled apps). -/
def modelDeps (env : Env) (m : String) (strategies : List Strategy) :
    Except PyErr (List (Option String)) := do
  let meta := env.meta m
  let base ←
    match meta.natural_key_deps with
    | some ds =>
      if ds.isEmpty then pure ([] : List (Option String))
      else do
        let rs ← ds.mapM (fun d => apps_get_model env d)
        pure (rs.map some)
    | none => pure ([] : List (Option String))
  let fk := (meta.fk_targets.filter (fun t => t ≠ m)).map some
  let m2m := ((meta.m2m_targets.filter (fun p => p.2 && p.1 ≠ m)).map
    (fun p => p.1)).map some
  let sd ← strategies.mapM (fun s => s.depends_on.mapM (fun d => to_model env d))
  pure (base ++ fk ++ m2m ++ sd.flatten)

/-- The first loop of `sort_model_strategies` (lines 45-74): resolve each
work-set key, skip unresolvable ones, and collect `model_dependencies`
(pairs of model id and dependency list) together with the `models` set.
Because a model id is appended to both lists in the same iteration, the
returned `models` list is exactly the key list of the returned
`model_dependencies`. -/
def build_model_dependencies (env : Env) :
    List (String × List Strategy) →
    Except PyErr (List (String × List (Option String)) × List String)
  | [] => .ok ([], [])
  | (label, strategies) :: rest => do
    match ← to_model env label with
    | none => build_model_dependencies env rest
    | some m => do
      let deps ← modelDeps env m strategies
      let (mdeps, models) ← build_model_dependencies env rest
      pure ((m, deps) :: mdeps, m :: models)

/-- Insert with Python-dict semantics: overwrite an existing key in place,
append a fresh key at the end. -/
def dictInsert (k : String) (v : List String) :
    List (String × List String) → List (String × List String)
  | [] => [(k, v)]
  | (k', v') :: rest =>
    if k' = k then (k, v) :: rest else (k', v') :: dictInsert k v rest

/-- First-match lookup in an association list (Python dict lookup; dict keys
are unique, so first match is the match). -/
def dictGet {β : Type} (d : List (String × β)) (k : String) : Option β :=
  match d with
  | [] => none
  | (k', v) :: rest => if k' = k then some v else dictGet rest k

/-- The `dependency_graph` dict comprehension of `sort_model_strategies`
(lines 76-79): keys are `to_app_model_label(x)` for each entry of
`model_dependencies`, values are the label sets of the dependency lists.
Dependency entries that are Python `None` make `to_app_model_label` raise
`AttributeError` here.  The value set is represented by a duplicate-free
list; it is only ever consumed through membership. -/
def build_dependency_graph (env : Env)
    (mdeps : List (String × List (Option String))) :
    Except PyErr (List (String × List String)) :=
  mdeps.foldlM
    (fun g p => do
      let labels ← p.2.mapM (to_app_model_label env)
      pure (dictInsert (modelLabel env p.1) labels.dedup g))
    []

/-- The readiness test of line 93 of `utils.py` for one dependency entry:
`d not in models or d in model_list`.  Python `None` is never a member of
the set of model objects, so a `none` entry is always satisfied. -/
def depOk (models mlist : List String) : Option String → Bool
  | none => true
  | some d => decide (d ∉ models) || decide (d ∈ mlist)

/-- One pass of the inner `while` loop of `sort_model_strategies`
(lines 87-97), processing items in pop order: ready items are appended to
`mlist`, the rest to `skipped`, and `changed` records whether any item was
appended. -/
def runPass (models : List String) :
    List (String × List (Option String)) → List String →
    List (String × List (Option String)) → Bool →
    (List String × List (String × List (Option String)) × Bool)
  | [], mlist, skipped, changed => (mlist, skipped, changed)
  | (m, deps) :: rest, mlist, skipped, changed =>
    if deps.all (depOk models mlist) then
      runPass models rest (mlist ++ [m]) skipped true
    else
      runPass models rest mlist (skipped ++ [(m, deps)]) changed

/-- Python's lexicographic string comparison (code point by code point),
used to embed `sorted(..., key=lambda obj: obj[0].__name__)`. -/
def lexLe : List Char → List Char → Bool
  | [], _ => true
  | _ :: _, [] => false
  | a :: as, b :: bs => if a = b then lexLe as bs else decide (a < b)

/-- Python `s1 <= s2` on strings. -/
def pyStrLe (a b : String) : Bool := lexLe a.toList b.toList

/-- The ordering used by `sorted(skipped, key=lambda obj: obj[0].__name__)`:
compare entries by the Python string order of their model's `__name__`. -/
def nameOrder (env : Env) (a b : String × List (Option String)) : Prop :=
  pyStrLe (env.meta a.1).object_name (env.meta b.1).object_name = true

instance (env : Env) : DecidableRel (nameOrder env) := fun a b =>
  decidable_of_iff
    (pyStrLe (env.meta a.1).object_name (env.meta b.1).object_name = true)
    Iff.rfl

/-- The list of `"{app_label}.{object_name}"` strings interpolated into the
`RuntimeError` message (lines 99-110 of `utils.py`): the skipped entries
sorted (stably, as Python's `sorted` is stable) by the model's `__name__`,
then formatted. -/
def cycleErrorNames (env : Env)
    (skipped : List (String × List (Option String))) : List String :=
  (List.insertionSort (nameOrder env) skipped).map
    (fun p => (env.meta p.1).app_label ++ "." ++ (env.meta p.1).object_name)

/-- The outer `while` loop of `sort_model_strategies` (lines 84-112).
`procList` holds the remaining `model_dependencies` items in the order the
next pass pops them (`list.pop()` pops from the end, so each new `skipped`
list is processed reversed on the following pass, and the initial call
receives the original order because the code reverses the list once before
the loop).  A pass with no progress raises the `RuntimeError` of lines
99-110.  The `Nat` argument is a structural recursion bound, not part of
the modelled state: the initial call passes the length of the work list,
every recursive call strictly shrinks the list (`runPass_skipped_sublen`),
so the zero-fuel-with-nonempty-list branch is unreachable from
`sort_model_strategies` (`sortLoop_fuel_irrelevant`); it is kept total with
the same behaviour as a pass that makes no progress. -/
def sortLoop (env : Env) (models : List String) :
    Nat → List String → List (String × List (Option String)) →
    Except PyErr (List String)
  | _, mlist, [] => .ok mlist
  | fuel + 1, mlist, p :: ps =>
    let r := runPass models (p :: ps) mlist [] false
    if r.2.2 then sortLoop env models fuel r.1 r.2.1.reverse
    else .error (.runtimeError (cycleErrorNames env r.2.1))
  | 0, _, p :: ps =>
    .error (.runtimeError (cycleErrorNames env (p :: ps)))

/-- One step of the output comprehension of `sort_model_strategies` (lines
114-118): the `(to_app_model_label(y), x)` pairs contributed by one placed
model `y`, looking its label up in the `model_strategies` dict (a missing
key raises `KeyError`). -/
def strategiesFor (model_strategies : List (String × List Strategy))
    (env : Env) (m : String) : Except PyErr (List (String × Strategy)) :=
  match dictGet model_strategies (modelLabel env m) with
  | some ss => .ok (ss.map (fun s => (modelLabel env m, s)))
  | none => .error .keyError

/-- `utils.sort_model_strategies`: build `model_dependencies` and `models`,
build `dependency_graph`, run the dependency-peeling loop, then emit one
`(label, strategy)` pair per strategy of each placed model in placement
order. -/
def sort_model_strategies (env : Env)
    (model_strategies : List (String × List Strategy)) :
    Except PyErr (List (String × Strategy) × List (String × List String)) := do
  let (mdeps, models) ← build_model_dependencies env model_strategies
  let graph ← build_dependency_graph env mdeps
  let mlist ← sortLoop env models mdeps.length [] mdeps
  let groups ← mlist.mapM (strategiesFor model_strategies env)
  pure (groups.flatten, graph)

/-! ## `engine.py`: the concurrency-bounded executor -/

/-- Status of a submitted future at one poll round, as reported by the
thread pool (the external collaborator): still running, finished
successfully, or finished by raising an exception with message `msg`. -/
inductive FutStatus where
  | running : FutStatus
  | finished : FutStatus
  | raised (msg : String) : FutStatus
deriving DecidableEq, Repr

/-- The completion schedule of the worker pool: `O round label` is the
status `future.done()` / `future.exception()` observes for `label`'s future
during the collection scan of iteration `round`.  This models the
nondeterministic timing of the collaborator threads. -/
def Oracle : Type := Nat → String → FutStatus

/-- The mutable state of `_export_concurrently`'s admission loop.
`done` embeds the `done` set, `inFlight` the key list of the `in_flight`
dict (insertion order), `round` counts loop iterations.  `submitted` is an
observation log of the `executor.submit(_export_one, ...)` calls, in order;
it records which work units were ever handed to the pool. -/
structure ExecState where
  done : List String
  inFlight : List String
  submitted : List (String × Strategy)
  round : Nat
deriving DecidableEq, Repr

/-- Result of one body iteration: either a raised exception (with the state
at the moment of the raise, for observation) or the next state. -/
inductive StepRes where
  | raise (e : PyErr) (S : ExecState) : StepRes
  | next (S : ExecState) : StepRes
deriving DecidableEq, Repr

/-- `dependency_graph.get(x, set())`. -/
def graphGet (g : List (String × List String)) (x : String) : List String :=
  (dictGet g x).getD []

/-- `remaining_strategies` (lines 127-131 of `engine.py`): the work units
whose label is neither done nor in flight, each with its yet-unsatisfied
dependency label set `dependency_graph.get(x, set()) - done`. -/
def remainingOf (ms : List (String × Strategy))
    (g : List (String × List String)) (S : ExecState) :
    List (String × Strategy × List String) :=
  (ms.filter (fun p => decide (p.1 ∉ S.done) && decide (p.1 ∉ S.inFlight))).map
    (fun p => (p.1, p.2, (graphGet g p.1).filter (fun d => decide (d ∉ S.done))))

/-- The admission `for` loop (lines 148-162): submit each available unit
unless its label is already done or in flight (which can happen within the
same pass when two units share a label).  Note that `concurrency` plays no
part here: it only sizes the worker pool. -/
def admitLoop : List (String × Strategy) → ExecState → ExecState
  | [], S => S
  | (x, y) :: rest, S =>
    if x ∈ S.done ∨ x ∈ S.inFlight then admitLoop rest S
    else admitLoop rest
      { S with inFlight := S.inFlight ++ [x],
               submitted := S.submitted ++ [(x, y)] }

/-- The completion scan (lines 166-177), iterating over a snapshot of
`in_flight` in insertion order: a still-running future is skipped, a future
that raised re-raises its exception out of the loop, a finished future's
label moves from `in_flight` to `done`.  The round counter advances when
the scan completes. -/
def collectLoop (O : Oracle) (round : Nat) :
    List String → ExecState → StepRes
  | [], S => .next { S with round := S.round + 1 }
  | x :: rest, S =>
    match O round x with
    | .running => collectLoop O round rest S
    | .finished => collectLoop O round rest
        { S with done := S.done ++ [x], inFlight := S.inFlight.erase x }
    | .raised msg => .raise (.unitError msg) S

/-- `available_strategies` (lines 135-137): remaining units whose
unsatisfied dependency set is empty. -/
def availableOf (ms : List (String × Strategy))
    (g : List (String × List String)) (S : ExecState) :
    List (String × Strategy) :=
  ((remainingOf ms g S).filter (fun t => t.2.2.isEmpty)).map
    (fun t => (t.1, t.2.1))

/-- `blocked_strategies` (lines 140-142): remaining units with a non-empty
unsatisfied dependency set. -/
def blockedOf (ms : List (String × Strategy))
    (g : List (String × List String)) (S : ExecState) :
    List (String × Strategy) :=
  ((remainingOf ms g S).filter (fun t => !t.2.2.isEmpty)).map
    (fun t => (t.1, t.2.1))

/-- One iteration of the `while len(done) < total` body (lines 126-177):
compute the remaining and available units; if no unit is available and none
is blocked, raise `AssertionError("Reached impossible state.")`; otherwise
admit the available units, sleep, and scan for completions. -/
def execStep (ms : List (String × Strategy)) (g : List (String × List String))
    (O : Oracle) (S : ExecState) : StepRes :=
  if (availableOf ms g S).isEmpty && (blockedOf ms g S).isEmpty then
    .raise .assertionError S
  else
    let S1 := admitLoop (availableOf ms g S) S
    collectLoop O S1.round S1.inFlight S1

/-- Outcome of running the admission loop with a given amount of fuel:
normal completion (`len(done) = total`), a raised exception, or fuel
exhaustion (`fuelOut S` witnesses that the loop was still running after the
given number of iterations — used to observe non-termination). -/
inductive ExecResult where
  | completed (S : ExecState) : ExecResult
  | err (e : PyErr) (S : ExecState) : ExecResult
  | fuelOut (S : ExecState) : ExecResult
deriving DecidableEq, Repr

/-- The `while len(done) < total` loop of `_export_concurrently`, iterated
at most `fuel` times. -/
def execLoop (ms : List (String × Strategy)) (g : List (String × List String))
    (O : Oracle) : Nat → ExecState → ExecResult
  | fuel, S =>
    if S.done.length < ms.length then
      match fuel with
      | 0 => .fuelOut S
      | fuel' + 1 =>
        match execStep ms g O S with
        | .raise e S' => .err e S'
        | .next S' => execLoop ms g O fuel' S'
    else .completed S

/-- `engine._export_concurrently`: run the admission loop from the empty
state.  `concurrency` only configures `ThreadPoolExecutor(max_workers=...)`,
i.e. the collaborator pool abstracted by the `Oracle`; it is not consulted
by the admission bookkeeping. -/
def _export_concurrently (ms : List (String × Strategy))
    (g : List (String × List String)) (O : Oracle) (fuel : Nat) : ExecResult :=
  execLoop ms g O fuel ⟨[], [], [], 0⟩

/-- `engine.export_data` serial iteration (lines 210-219): invoke
`_export_one` for each pair in order; a raised exception (modelled by the
runner returning `some msg`) aborts the iteration and propagates.  Returns
the invocation log and the propagated exception, if any. -/
def serialLoop (runner : String → Strategy → Option String) :
    List (String × Strategy) → List (String × Strategy) →
    (List (String × Strategy) × Option String)
  | [], log => (log, none)
  | (l, s) :: rest, log =>
    match runner l s with
    | none => serialLoop runner rest (log ++ [(l, s)])
    | some e => (log ++ [(l, s)], some e)

/-- Observable outcome of `export_data`.  In serial mode, `invoked` is the
ordered log of `_export_one` calls and `err = some msg` models the runner's
exception propagating to the caller; in concurrent mode the outcome is the
admission loop's result. -/
inductive ExportOutcome where
  | serial (invoked : List (String × Strategy)) (err : Option String) : ExportOutcome
  | concurrent (r : ExecResult) : ExportOutcome
deriving DecidableEq, Repr

/-- The `only` filter of `export_data` (lines 196-198), with Python
truthiness: a `None` or empty `only` keeps every unit. -/
def onlyFilter (only : Option (List String)) (sorted : List (String × Strategy)) :
    List (String × Strategy) :=
  match only with
  | none => sorted
  | some o => if o.isEmpty then sorted else sorted.filter (fun p => decide (p.1 ∈ o))

/-- `engine.export_data`: sort the configured strategies, filter by `only`
(Python truthiness: a `None` or empty `only` keeps everything), then run
concurrently when `concurrency is not None and concurrency > 1`, else
serially.  The runner outcome function models `_export_one` (the unit
runner collaborator) for serial mode; the oracle models the pool for
concurrent mode. -/
def export_data (env : Env) (settings : List (String × List Strategy))
    (only : Option (List String)) (concurrency : Option Nat)
    (runner : String → Strategy → Option String) (O : Oracle) (fuel : Nat) :
    Except PyErr ExportOutcome := do
  let (sorted, graph) ← sort_model_strategies env settings
  let ms := onlyFilter only sorted
  match concurrency with
  | some c =>
    if c > 1 then
      pure (.concurrent (_export_concurrently ms graph O fuel))
    else
      pure (.serial (serialLoop runner ms []).1 (serialLoop runner ms []).2)
  | none =>
    pure (.serial (serialLoop runner ms []).1 (serialLoop runner ms []).2)

/-! ## Specification-level notions used by the theorems -/

/-- The state recorded in an `ExecResult` (the observation point at which a
run completed, raised, or ran out of fuel). -/
def ExecResult.state : ExecResult → ExecState
  | .completed S => S
  | .err _ S => S
  | .fuelOut S => S

/-- The state recorded in a `StepRes`. -/
def StepRes.state : StepRes → ExecState
  | .raise _ S => S
  | .next S => S

/-- The dependency relation of the built graph, restricted to the active
work set: `DepEdge mdeps t d` holds when model `t`'s computed dependency
list contains model `d`, and `d` itself is one of the models of the work
set (the `models` set of `sort_model_strategies`). -/
def DepEdge (mdeps : List (String × List (Option String))) (t d : String) : Prop :=
  (∃ deps, (t, deps) ∈ mdeps ∧ some d ∈ deps) ∧ d ∈ mdeps.map Prod.fst

/-- The dependency graph restricted to the work set is acyclic: no model
transitively depends on itself through in-work-set dependencies. -/
def AcyclicDeps (mdeps : List (String × List (Option String))) : Prop :=
  ∀ t, ¬ Relation.TransGen (DepEdge mdeps) t t

/-- A model of the work set is resolvable when all of its in-work-set
dependencies are (hereditarily) resolvable.  This is the least fixpoint
describing the models that a dependency-respecting linearisation can
place; the models outside it are exactly the "stuck" ones that feed an
unresolvable cycle. -/
inductive Resolvable (mdeps : List (String × List (Option String))) : String → Prop where
  | mk (m : String) (deps : List (Option String)) :
      (m, deps) ∈ mdeps →
      (∀ d, some d ∈ deps → d ∈ mdeps.map Prod.fst → Resolvable mdeps d) →
      Resolvable mdeps m

/-- The `"{app_label}.{object_name}"` display form of a model, as
interpolated into the dependency-cycle error message. -/
def displayName (env : Env) (m : String) : String :=
  (env.meta m).app_label ++ "." ++ (env.meta m).object_name

/-- Soundness of a placement list produced by the peeling loop: whenever a
model appears in the list, every one of its computed dependencies that is
itself a work-set model appears strictly earlier. -/
def SoundPrefix (mdeps : List (String × List (Option String)))
    (models : List String) (mlist : List String) : Prop :=
  ∀ l1 m l2, mlist = l1 ++ m :: l2 →
    ∀ deps, (m, deps) ∈ mdeps → ∀ d, some d ∈ deps → d ∈ models → d ∈ l1

/-- Position of an element in a list (position of the first occurrence;
used to express "appears strictly before" for the topological-order
theorems). -/
def posIn : List String → String → Nat
  | [], _ => 0
  | x :: rest, a => if x = a then 0 else posIn rest a + 1

/-- Well-formedness of the executor's schedule state: `done` and
`in_flight` are duplicate-free sets of work-set labels, and no label is in
both partitions at once (the spec's "three disjoint partitions"
invariant).  The initial state satisfies it and every step preserves it. -/
def GoodState (ms : List (String × Strategy)) (S : ExecState) : Prop :=
  S.done.Nodup ∧ S.inFlight.Nodup ∧
  (∀ x ∈ S.done, x ∈ ms.map Prod.fst) ∧
  (∀ x ∈ S.inFlight, x ∈ ms.map Prod.fst) ∧
  (∀ x ∈ S.inFlight, x ∉ S.done)

/-! ## Concrete fixtures used by witnesses and counterexamples -/

/-- A strategy with no declared extra dependencies. -/
def stratPlain : Strategy := ⟨"default", []⟩

/-- A registry with six models in app `app`: `B` has a relational reference
to `A`; the others have no metadata-level dependencies. -/
def envMain : Env where
  get_model := fun a b =>
    if a = "app" && (b = "A" || b = "B" || b = "C" || b = "D" || b = "X" || b = "Y")
    then some ("app." ++ b) else none
  meta := fun m =>
    if m = "app.B" then ⟨"app", "B", none, ["app.A"], []⟩
    else if m = "app.C" then ⟨"app", "C", none, [], []⟩
    else if m = "app.D" then ⟨"app", "D", none, [], []⟩
    else if m = "app.X" then ⟨"app", "X", none, [], []⟩
    else if m = "app.Y" then ⟨"app", "Y", none, [], []⟩
    else ⟨"app", "A", none, [], []⟩

/-- A registry where `app.A` has a relational reference to itself and to
`app.B`, and an auto-created join table back to itself — the metadata-level
self-reference sources that lines 60 and 64-67 of `utils.py` filter. -/
def envSelfFk : Env where
  get_model := fun a b =>
    if a = "app" && (b = "A" || b = "B") then some ("app." ++ b) else none
  meta := fun m =>
    if m = "app.B" then ⟨"app", "B", none, [], []⟩
    else ⟨"app", "A", none, ["app.A", "app.B"], [("app.A", true)]⟩

/-- The oracle of a pool whose workers never finish within a poll interval. -/
def oracleSlow : Oracle := fun _ _ => .running

/-- The oracle of a pool whose workers always finish, successfully, within
the poll interval of the round in which they were submitted. -/
def oracleFast : Oracle := fun _ _ => .finished

/-! ## Theorems for the claims -/

/-- C3: the claim states that the concurrent admission loop raises its
fatal unresolved-state error exactly when ready and in-flight are empty
while pending is non-empty, and otherwise neither fails fatally nor hangs.
The code does the opposite.  First conjunct: a single dependency-free unit
whose worker outlives one poll interval makes the loop raise
`AssertionError` at the next iteration, at an observation point where the
in-flight set is `["app.A"]` (non-empty) and pending is empty.  Second
conjunct: in the claimed fatal state (nothing ready, nothing in flight,
pending non-empty) the loop raises nothing and makes no progress — after 5
iterations nothing was submitted, done, or raised (it hangs). -/
theorem c3_assertion_in_normal_state_and_hang_in_stall_state :
    _export_concurrently [("app.A", stratPlain)] [("app.A", [])] oracleSlow 5 =
      .err .assertionError ⟨[], ["app.A"], [("app.A", stratPlain)], 1⟩ ∧
    _export_concurrently [("app.X", stratPlain), ("app.Y", stratPlain)]
        [("app.X", ["app.Y"]), ("app.Y", ["app.X"])] oracleFast 5 =
      .fuelOut ⟨[], [], [], 5⟩ := by
  constructor
  · rfl
  · rfl

/-- C5: the claim states that in a non-failing run every work unit ends in
`done` exactly once, including when an EntityType has several handlers, all
scheduled at that EntityType's position.  In the concurrent path this
fails: with two handlers for `app.X`, only the first is ever submitted
(the second is skipped because its label is already in flight or done),
`len(done)` (a set of labels) can never reach `total` (a count of units),
and the run aborts with `AssertionError` after executing only the first
handler. -/
theorem c5_second_handler_never_executed :
    _export_concurrently
        [("app.X", ⟨"s1", []⟩), ("app.X", ⟨"s2", []⟩)] [("app.X", [])]
        oracleFast 5 =
      .err .assertionError ⟨["app.X"], [], [("app.X", ⟨"s1", []⟩)], 1⟩ := by
  rfl

/-- C7: the claim states that a handler-declared dependency reference that
does not resolve to a known EntityType contributes no dependency and the
build raises no error.  In the code, `to_model` does return `None` for such
a reference (second conjunct), but the `dependency_graph` comprehension
then calls `to_app_model_label(None)`, which raises `AttributeError`
(first conjunct), so `sort_model_strategies` fails instead of dropping the
reference. -/
theorem c7_unresolvable_strategy_dep_raises :
    sort_model_strategies envMain [("app.A", [⟨"s", ["zzz.Missing"]⟩])] =
      .error .attributeError ∧
    to_model envMain "zzz.Missing" = .ok none := by
  constructor
  · rfl
  · rfl

/-- C4 counterexample: the claim states that at every observation point of
the schedule state the in-flight set has at most `max_concurrency`
elements.  With three independent units and `max_concurrency = 2`, the
first admission pass submits all three, and the observation point after
one loop iteration shows an in-flight set of size `3 > 2`. -/
theorem c4_counterexample_inflight_exceeds_budget :
    export_data envMain
        [("app.A", [stratPlain]), ("app.C", [stratPlain]), ("app.D", [stratPlain])]
        none (some 2) (fun _ _ => none) oracleSlow 1 =
      .ok (.concurrent (.fuelOut
        ⟨[], ["app.A", "app.C", "app.D"],
         [("app.A", stratPlain), ("app.C", stratPlain), ("app.D", stratPlain)], 1⟩)) ∧
    ¬ (["app.A", "app.C", "app.D"].length ≤ 2) := by
  constructor
  · rfl
  · decide

/-- C6 counterexample: the claim states that dependency edges pointing to
EntityTypes absent from the work set are dropped both from the ordered
output and from the graph handed to the concurrent executor, never
blocking a unit.  With a work set containing only `app.B` (which
references the absent `app.A`), the sequencer does order `app.B`, but the
returned graph retains the edge to `app.A` (first conjunct), and the
concurrent executor — which subtracts only `done` from that dependency
set — never admits `app.B`: after 5 iterations, even with instantly
finishing workers, nothing was submitted or done (second conjunct). -/
theorem c6_counterexample_absent_dep_blocks_forever :
    sort_model_strategies envMain [("app.B", [stratPlain])] =
      .ok ([("app.B", stratPlain)], [("app.B", ["app.A"])]) ∧
    _export_concurrently [("app.B", stratPlain)] [("app.B", ["app.A"])]
        oracleFast 5 =
      .fuelOut ⟨[], [], [], 5⟩ := by
  constructor
  · rfl
  · rfl

/-- C9 counterexample: the claim states that self-dependencies from every
merged source are filtered out before the graph is used.  A
handler-declared dependency of `app.X` on itself is *not* filtered: the
computed dependency list of `app.X` contains `app.X` (first conjunct), and
as a consequence sequencing fails with the dependency-cycle error naming
`app.X` (second conjunct), instead of treating the self-edge as removed. -/
theorem c9_counterexample_handler_self_dep_kept :
    build_model_dependencies envMain [("app.X", [⟨"s", ["app.X"]⟩])] =
      .ok ([("app.X", [some "app.X"])], ["app.X"]) ∧
    sort_model_strategies envMain [("app.X", [⟨"s", ["app.X"]⟩])] =
      .error (.runtimeError ["app.X"]) := by
  constructor
  · rfl
  · rfl

/-! ### Generic helper lemmas -/

theorem mapM_ok_mem {α β : Type} (f : α → Except PyErr β) :
    ∀ (l : List α) (rs : List β), l.mapM f = .ok rs →
      ∀ r ∈ rs, ∃ a ∈ l, f a = .ok r := by
  intro l
  induction l with
  | nil =>
    intro rs h r hr
    rw [List.mapM_nil] at h
    cases h
    cases hr
  | cons a l ih =>
    intro rs h r hr
    rw [List.mapM_cons] at h
    cases hfa : f a with
    | error e => rw [hfa] at h; cases h
    | ok b =>
      rw [hfa] at h
      cases hfl : l.mapM f with
      | error e => rw [hfl] at h; cases h
      | ok bs =>
        rw [hfl] at h
        simp only [bind, Except.bind, pure, Except.pure] at h
        injection h with h
        subst h
        rcases hr with _ | hr
        · exact ⟨a, List.mem_cons_self a l, hfa⟩
        · obtain ⟨a', ha', hfa'⟩ := ih bs hfl r (by assumption)
          exact ⟨a', List.mem_cons_of_mem a ha', hfa'⟩

theorem mapM_ok_of_all_ok {α β : Type} (f : α → Except PyErr β) (g : α → β) :
    ∀ (l : List α), (∀ a ∈ l, f a = .ok (g a)) → l.mapM f = .ok (l.map g) := by
  intro l
  induction l with
  | nil => intro _; rw [List.mapM_nil]; rfl
  | cons a l ih =>
    intro h
    rw [List.mapM_cons, h a (List.mem_cons_self a l),
      ih (fun a ha => h a (List.mem_cons_of_mem _ ha))]
    rfl

/-! ### C8: serial mode -/

theorem serialLoop_fail_fast (runner : String → Strategy → Option String) :
    ∀ (L1 : List (String × Strategy)) (log : List (String × Strategy))
      (lb : String) (sb : Strategy) (L2 : List (String × Strategy)) (e : String),
      (∀ u ∈ L1, runner u.1 u.2 = none) → runner lb sb = some e →
      serialLoop runner (L1 ++ (lb, sb) :: L2) log =
        (log ++ (L1 ++ [(lb, sb)]), some e) := by
  intro L1
  induction L1 with
  | nil =>
    intro log lb sb L2 e _ hfail
    simp [serialLoop, hfail]
  | cons u L1 ih =>
    intro log lb sb L2 e hok hfail
    obtain ⟨l, s⟩ := u
    have h1 : runner l s = none := hok (l, s) (List.mem_cons_self _ _)
    simp only [List.cons_append, serialLoop, h1]
    have := ih (log ++ [(l, s)]) lb sb L2 e
      (fun u hu => hok u (List.mem_cons_of_mem _ hu)) hfail
    simpa using this

/-- C8: when `concurrency` is absent or at most 1, `export_data` runs in
serial mode: the units of the (sorted, `only`-filtered) work list are
invoked synchronously in exactly that order, and the first failure aborts
immediately with that unit's error — every unit before the failing one has
run, the failing unit's error propagates to the caller, and no unit after
it is ever invoked (the invocation log is exactly `L1 ++ [(lb, sb)]`). -/
theorem c8_serial_mode_fail_fast (env : Env)
    (settings : List (String × List Strategy)) (only : Option (List String))
    (c : Option Nat) (runner : String → Strategy → Option String)
    (O : Oracle) (fuel : Nat) (sorted : List (String × Strategy))
    (graph : List (String × List String)) (L1 L2 : List (String × Strategy))
    (lb : String) (sb : Strategy) (e : String)
    (hsort : sort_model_strategies env settings = .ok (sorted, graph))
    (hserial : c = none ∨ ∃ k, c = some k ∧ k ≤ 1)
    (hfilter : onlyFilter only sorted = L1 ++ (lb, sb) :: L2)
    (hok : ∀ u ∈ L1, runner u.1 u.2 = none)
    (hfail : runner lb sb = some e) :
    export_data env settings only c runner O fuel =
      .ok (.serial (L1 ++ [(lb, sb)]) (some e)) := by
  have hrun := serialLoop_fail_fast runner L1 [] lb sb L2 e hok hfail
  rw [List.nil_append] at hrun
  unfold export_data
  rw [hsort]
  simp only [bind, Except.bind, hfilter]
  rcases hserial with hc | ⟨k, hc, hk⟩
  · subst hc
    rw [hrun]
    rfl
  · subst hc
    have : ¬ (k > 1) := by omega
    simp only [this, if_false, hrun]
    rfl

/-- C8 witness: over the serial work list `[A, B, C]` where `B`'s runner
raises, `A` completes, `B`'s error is propagated to the caller, and `C`'s
runner is never invoked. -/
theorem c8_serial_mode_fail_fast_witness :
    export_data envMain
        [("app.A", [stratPlain]), ("app.B", [stratPlain]), ("app.C", [stratPlain])]
        none none
        (fun l _ => if l = "app.B" then some "boom" else none) oracleFast 5 =
      .ok (.serial [("app.A", stratPlain), ("app.B", stratPlain)] (some "boom")) := by
  have h := c8_serial_mode_fail_fast envMain
    [("app.A", [stratPlain]), ("app.B", [stratPlain]), ("app.C", [stratPlain])]
    none none (fun l _ => if l = "app.B" then some "boom" else none) oracleFast 5
    [("app.A", stratPlain), ("app.B", stratPlain), ("app.C", stratPlain)]
    [("app.A", []), ("app.B", ["app.A"]), ("app.C", [])]
    [("app.A", stratPlain)] [("app.C", stratPlain)] "app.B" stratPlain "boom"
    rfl (Or.inl rfl) rfl (by decide) rfl
  simpa using h

/-! ### C9 (amended): relational and join-table self-dependencies are
filtered; natural-key and handler-declared ones are not -/

/-- Membership in the natural-key part of a dependency list resolved by
`apps_get_model` implies one of the declared labels resolved to it. -/
theorem mem_natKey_part (env : Env) (m : String) (ds : List String)
    (rs : List String) (hrs : ds.mapM (fun d => apps_get_model env d) = .ok rs)
    (hnat : ∀ d ∈ ds, apps_get_model env d ≠ .ok m) :
    some m ∉ rs.map some := by
  intro hmem
  rcases List.mem_map.mp hmem with ⟨x, hx, hxr⟩
  have hxm : x = m := by injection hxr
  subst hxm
  obtain ⟨d, hd, hdm⟩ := mapM_ok_mem _ ds rs hrs x hx
  exact hnat d hd hdm

/-- The relational part of a dependency list never contains the model
itself: line 60 of `utils.py` filters `field.remote_field.model != model`. -/
theorem not_self_mem_fk (env : Env) (m : String) :
    some m ∉ ((env.meta m).fk_targets.filter (fun t => t ≠ m)).map some := by
  intro hmem
  rcases List.mem_map.mp hmem with ⟨t, ht, hts⟩
  have htm : t = m := by injection hts
  subst htm
  have := List.of_mem_filter ht
  simp at this

/-- The join-table part of a dependency list never contains the model
itself: lines 64-67 of `utils.py` filter `field.remote_field.model != model`. -/
theorem not_self_mem_m2m (env : Env) (m : String) :
    some m ∉ (((env.meta m).m2m_targets.filter (fun p => p.2 && p.1 ≠ m)).map
      (fun p => p.1)).map some := by
  intro hmem
  rcases List.mem_map.mp hmem with ⟨t, ht, hts⟩
  have htm : t = m := by injection hts
  subst htm
  rcases List.mem_map.mp ht with ⟨q, hq, hqt⟩
  have := List.of_mem_filter hq
  rw [hqt] at this
  simp at this

/-- Membership in the flattened handler-declared part implies one handler's
`depends_on` entry resolved to it through `to_model`. -/
theorem mem_strategy_part (env : Env) (m : String) (ss : List Strategy)
    (sd : List (List (Option String)))
    (hsd : ss.mapM (fun s => s.depends_on.mapM (fun d => to_model env d)) = .ok sd)
    (hstrat : ∀ s ∈ ss, ∀ d ∈ s.depends_on, to_model env d ≠ .ok (some m)) :
    some m ∉ sd.flatten := by
  intro hmem
  rcases List.mem_flatten.mp hmem with ⟨row, hrow, hmem2⟩
  obtain ⟨s, hs, hsrow⟩ := mapM_ok_mem _ ss sd hsd row hrow
  obtain ⟨d, hd, hdm⟩ := mapM_ok_mem _ s.depends_on row hsrow _ hmem2
  exact hstrat s hs d hd hdm

/-- C9 (amended): for every model of the work set, if its natural-key
dependencies and its handlers' declared `depends_on` entries do not resolve
to the model itself, then the computed dependency list contains no
self-dependency — i.e. the *relational* and *join-table* self-reference
sources are always filtered out (lines 60 and 64-67 of `utils.py`), so any
self-loop can only come from the natural-key or handler-declared sources. -/
theorem c9_amended_metadata_self_deps_filtered (env : Env) (m : String)
    (ss : List Strategy) (deps : List (Option String))
    (hdeps : modelDeps env m ss = .ok deps)
    (hnat : ∀ ds, (env.meta m).natural_key_deps = some ds →
      ∀ d ∈ ds, apps_get_model env d ≠ .ok m)
    (hstrat : ∀ s ∈ ss, ∀ d ∈ s.depends_on, to_model env d ≠ .ok (some m)) :
    some m ∉ deps := by
  unfold modelDeps at hdeps
  simp only [bind, Except.bind, pure, Except.pure] at hdeps
  rcases hsd : ss.mapM (fun s => s.depends_on.mapM (fun d => to_model env d))
      with e | sd <;> simp only [hsd] at hdeps
  · rcases hb : (env.meta m).natural_key_deps with _ | ds <;>
      simp only [hb] at hdeps
    · exact Except.noConfusion hdeps
    · by_cases hds : ds.isEmpty = true
      · rw [if_pos hds] at hdeps
        exact Except.noConfusion hdeps
      · rw [if_neg hds] at hdeps
        rcases hrs : ds.mapM (fun d => apps_get_model env d) with e2 | rs <;>
          simp only [hrs] at hdeps <;> exact Except.noConfusion hdeps
  · have main : ∀ base, deps = base ++
        ((env.meta m).fk_targets.filter (fun t => t ≠ m)).map some ++
        (((env.meta m).m2m_targets.filter (fun p => p.2 && p.1 ≠ m)).map
          (fun p => p.1)).map some ++ sd.flatten →
        some m ∉ base → some m ∉ deps := by
      intro base hdeq hbase
      rw [hdeq]
      intro hmem
      rcases List.mem_append.mp hmem with h | h
      · rcases List.mem_append.mp h with h | h
        · rcases List.mem_append.mp h with h | h
          · exact hbase h
          · exact not_self_mem_fk env m h
        · exact not_self_mem_m2m env m h
      · exact mem_strategy_part env m ss sd hsd hstrat h
    rcases hb : (env.meta m).natural_key_deps with _ | ds <;>
      simp only [hb] at hdeps
    · injection hdeps with hdeq
      refine main [] hdeq.symm ?_
      intro h
      cases h
    · by_cases hds : ds.isEmpty = true
      · rw [if_pos hds] at hdeps
        injection hdeps with hdeq
        refine main [] hdeq.symm ?_
        intro h
        cases h
      · rw [if_neg hds] at hdeps
        rcases hrs : ds.mapM (fun d => apps_get_model env d) with e2 | rs <;>
          simp only [hrs] at hdeps
        · exact Except.noConfusion hdeps
        · injection hdeps with hdeq
          exact main (rs.map some) hdeq.symm
            (mem_natKey_part env m ds rs hrs (hnat ds hb))

/-- C9 (amended) witness: `app.A` has a relational reference to itself and
to `app.B` and an auto-created join table back to itself, yet its computed
dependency list is just `[app.B]` — both metadata self-references were
filtered out. -/
theorem c9_amended_witness :
    modelDeps envSelfFk "app.A" [stratPlain] = .ok [some "app.B"] ∧
    some "app.A" ∉ [some "app.B"] := by
  refine ⟨rfl, ?_⟩
  refine c9_amended_metadata_self_deps_filtered envSelfFk "app.A" [stratPlain]
    [some "app.B"] rfl ?_ ?_
  · intro ds hds
    rw [show (envSelfFk.meta "app.A").natural_key_deps = none from rfl] at hds
    cases hds
  · intro s hs d hd
    have : s = stratPlain := by simpa using hs
    subst this
    simp [stratPlain] at hd

/-! ### Executor state lemmas (C4, C6) -/

theorem remainingOf_mem (ms : List (String × Strategy))
    (g : List (String × List String)) (S : ExecState) (x : String)
    (y : Strategy) (z : List String)
    (h : (x, y, z) ∈ remainingOf ms g S) :
    (x, y) ∈ ms ∧ x ∉ S.done ∧ x ∉ S.inFlight ∧
      z = (graphGet g x).filter (fun d => decide (d ∉ S.done)) := by
  unfold remainingOf at h
  rcases List.mem_map.mp h with ⟨p, hp, hpe⟩
  obtain ⟨a, b⟩ := p
  have hmem := List.mem_of_mem_filter hp
  have hfilt := List.of_mem_filter hp
  simp only [Bool.and_eq_true, decide_eq_true_eq] at hfilt
  injection hpe with h1 h23
  injection h23 with h2 h3
  subst h1
  subst h2
  subst h3
  exact ⟨hmem, hfilt.1, hfilt.2, rfl⟩

theorem availableOf_mem (ms : List (String × Strategy))
    (g : List (String × List String)) (S : ExecState) (x : String)
    (y : Strategy) (h : (x, y) ∈ availableOf ms g S) :
    (x, y) ∈ ms ∧ x ∉ S.done ∧ x ∉ S.inFlight ∧
      (graphGet g x).filter (fun d => decide (d ∉ S.done)) = [] := by
  unfold availableOf at h
  rcases List.mem_map.mp h with ⟨t, ht, hte⟩
  obtain ⟨a, b, z⟩ := t
  have hmem := List.mem_of_mem_filter ht
  have hfilt := List.of_mem_filter ht
  simp only [List.isEmpty_iff] at hfilt
  injection hte with h1 h2
  subst h1
  subst h2
  obtain ⟨hms, hd, hf, hz⟩ := remainingOf_mem ms g S a b z hmem
  exact ⟨hms, hd, hf, by rw [← hz]; exact hfilt⟩

theorem admitLoop_spec :
    ∀ (avail : List (String × Strategy)) (S : ExecState),
    ∃ newS : List (String × Strategy),
      admitLoop avail S =
        { S with inFlight := S.inFlight ++ newS.map Prod.fst,
                 submitted := S.submitted ++ newS } ∧
      (∀ p ∈ newS, p ∈ avail) ∧
      (newS.map Prod.fst).Nodup ∧
      (∀ x ∈ newS.map Prod.fst, x ∉ S.inFlight ∧ x ∉ S.done) ∧
      (∀ x y, (x, y) ∈ avail → x ∉ S.done →
        x ∈ S.inFlight ++ newS.map Prod.fst) := by
  intro avail
  induction avail with
  | nil =>
    intro S
    refine ⟨[], by simp [admitLoop], ?_, ?_, ?_, ?_⟩
    · intro p hp; cases hp
    · simp
    · intro x hx; cases hx
    · intro x y hxy; cases hxy
  | cons u rest ih =>
    intro S
    obtain ⟨x, y⟩ := u
    by_cases hskip : x ∈ S.done ∨ x ∈ S.inFlight
    · obtain ⟨newS, heq, hsub, hnd, hnew, hcomp⟩ := ih S
      refine ⟨newS, ?_, ?_, hnd, hnew, ?_⟩
      · rw [admitLoop, if_pos hskip]; exact heq
      · intro p hp; exact List.mem_cons_of_mem _ (hsub p hp)
      · intro a b hab hdone
        rcases List.mem_cons.mp hab with hab | hab
        · injection hab with ha hb
          subst ha
          rcases hskip with h | h
          · exact absurd h hdone
          · exact List.mem_append.mpr (Or.inl h)
        · exact hcomp a b hab hdone
    · obtain ⟨newS, heq, hsub, hnd, hnew, hcomp⟩ :=
        ih { S with inFlight := S.inFlight ++ [x],
                    submitted := S.submitted ++ [(x, y)] }
      push_neg at hskip
      refine ⟨(x, y) :: newS, ?_, ?_, ?_, ?_, ?_⟩
      · rw [admitLoop, if_neg (by push_neg; exact hskip)]
        rw [heq]
        simp
      · intro p hp
        rcases List.mem_cons.mp hp with hp | hp
        · exact hp ▸ List.mem_cons_self _ _
        · exact List.mem_cons_of_mem _ (hsub p hp)
      · simp only [List.map_cons, List.nodup_cons]
        refine ⟨?_, hnd⟩
        intro hxin
        have := (hnew x hxin).1
        simp at this
      · intro a ha
        rw [List.map_cons] at ha
        rcases List.mem_cons.mp ha with ha2 | ha2
        · subst ha2
          exact ⟨hskip.2, hskip.1⟩
        · have := hnew a ha2
          simp only [List.mem_append] at this
          constructor
          · intro hin
            exact this.1 (Or.inl hin)
          · exact this.2
      · intro a b hab hdone
        rcases List.mem_cons.mp hab with hab | hab
        · injection hab with ha hb
          subst ha
          simp
        · have := hcomp a b hab hdone
          simp only [List.mem_append, List.map_cons, List.mem_cons,
            List.mem_singleton] at this ⊢
          tauto

theorem collectLoop_good (ms : List (String × Strategy)) (O : Oracle)
    (round : Nat) :
    ∀ (l : List String) (S : ExecState), GoodState ms S →
      (∀ x ∈ l, x ∈ S.inFlight) → l.Nodup →
      GoodState ms ((collectLoop O round l S).state) ∧
      ((collectLoop O round l S).state).submitted = S.submitted ∧
      (∀ q ∈ ((collectLoop O round l S).state).inFlight, q ∈ S.inFlight) := by
  intro l
  induction l with
  | nil =>
    intro S hg _ _
    exact ⟨hg, rfl, fun q hq => hq⟩
  | cons x rest ih =>
    intro S hg hsub hnd
    have hxfl : x ∈ S.inFlight := hsub x (List.mem_cons_self _ _)
    cases hOx : O round x with
    | running =>
      simp only [collectLoop, hOx]
      exact ih S hg (fun q hq => hsub q (List.mem_cons_of_mem _ hq))
        (List.Nodup.of_cons hnd)
    | raised msg =>
      simp only [collectLoop, hOx]
      exact ⟨hg, rfl, fun q hq => hq⟩
    | finished =>
      simp only [collectLoop, hOx]
      obtain ⟨hdn, hfn, hds, hfs, hdisj⟩ := hg
      have hxnd : x ∉ S.done := hdisj x hxfl
      have hg2 : GoodState ms
          { S with done := S.done ++ [x], inFlight := S.inFlight.erase x } := by
        refine ⟨?_, hfn.erase x, ?_, ?_, ?_⟩
        · simp [List.nodup_append, hdn, hxnd]
        · intro q hq
          rcases List.mem_append.mp hq with hq | hq
          · exact hds q hq
          · rw [List.mem_singleton.mp hq]
            exact hfs x hxfl
        · intro q hq
          exact hfs q (List.erase_subset _ _ hq)
        · intro q hq
          have hq2 : q ∈ S.inFlight := List.erase_subset _ _ hq
          have hqx : q ≠ x := by
            intro he
            subst he
            exact ((hfn.mem_erase_iff).mp hq).1 rfl
          intro hqd
          rcases List.mem_append.mp hqd with h | h
          · exact hdisj q hq2 h
          · exact hqx (List.mem_singleton.mp h)
      have hsub2 : ∀ q ∈ rest, q ∈ S.inFlight.erase x := by
        intro q hq
        have hqx : q ≠ x := by
          intro he
          subst he
          exact (List.nodup_cons.mp hnd).1 hq
        exact (hfn.mem_erase_iff).mpr ⟨hqx, hsub q (List.mem_cons_of_mem _ hq)⟩
      obtain ⟨hga, hsa, hfa⟩ := ih _ hg2 hsub2 (List.Nodup.of_cons hnd)
      exact ⟨hga, hsa, fun q hq => List.erase_subset _ _ (hfa q hq)⟩

theorem execStep_good (ms : List (String × Strategy))
    (g : List (String × List String)) (O : Oracle) (S : ExecState)
    (hg : GoodState ms S) :
    GoodState ms ((execStep ms g O S).state) ∧
    (∀ p ∈ ((execStep ms g O S).state).submitted,
      p ∈ S.submitted ∨ p ∈ availableOf ms g S) ∧
    (∀ q ∈ ((execStep ms g O S).state).inFlight,
      q ∈ S.inFlight ∨ q ∈ (availableOf ms g S).map Prod.fst) := by
  by_cases hcond :
      ((availableOf ms g S).isEmpty && (blockedOf ms g S).isEmpty) = true
  · rw [execStep, if_pos hcond]
    exact ⟨hg, fun p hp => Or.inl hp, fun q hq => Or.inl hq⟩
  · rw [execStep, if_neg hcond]
    obtain ⟨newS, heq, hsubav, hnd, hnew, _⟩ :=
      admitLoop_spec (availableOf ms g S) S
    simp only [heq]
    obtain ⟨hdn, hfn, hds, hfs, hdisj⟩ := hg
    have hg1 : GoodState ms
        { S with inFlight := S.inFlight ++ newS.map Prod.fst,
                 submitted := S.submitted ++ newS } := by
      refine ⟨hdn, ?_, hds, ?_, ?_⟩
      · rw [List.nodup_append]
        exact ⟨hfn, hnd, fun a ha hb => (hnew a hb).1 ha⟩
      · intro q hq
        rcases List.mem_append.mp hq with hq | hq
        · exact hfs q hq
        · rcases List.mem_map.mp hq with ⟨p, hp, hpe⟩
          obtain ⟨a, b⟩ := p
          have := (availableOf_mem ms g S a b (hsubav _ hp)).1
          subst hpe
          exact List.mem_map.mpr ⟨(a, b), this, rfl⟩
      · intro q hq
        rcases List.mem_append.mp hq with hq | hq
        · exact hdisj q hq
        · exact (hnew q hq).2
    obtain ⟨hga, hsa, hfa⟩ := collectLoop_good ms O S.round
      (S.inFlight ++ newS.map Prod.fst) _ hg1 (fun q hq => hq)
      hg1.2.1
    refine ⟨hga, ?_, ?_⟩
    · intro p hp
      rw [hsa] at hp
      rcases List.mem_append.mp hp with hp | hp
      · exact Or.inl hp
      · exact Or.inr (hsubav p hp)
    · intro q hq
      have := hfa q hq
      rcases List.mem_append.mp this with h | h
      · exact Or.inl h
      · right
        rcases List.mem_map.mp h with ⟨p, hp, hpe⟩
        exact List.mem_map.mpr ⟨p, hsubav p hp, hpe⟩

theorem execLoop_good (ms : List (String × Strategy))
    (g : List (String × List String)) (O : Oracle) :
    ∀ (fuel : Nat) (S : ExecState), GoodState ms S →
      GoodState ms ((execLoop ms g O fuel S).state) := by
  intro fuel
  induction fuel with
  | zero =>
    intro S hg
    rw [execLoop]
    by_cases hlt : S.done.length < ms.length
    · rw [if_pos hlt]; exact hg
    · rw [if_neg hlt]; exact hg
  | succ fuel ih =>
    intro S hg
    rw [execLoop]
    by_cases hlt : S.done.length < ms.length
    · rw [if_pos hlt]
      cases hstep : execStep ms g O S with
      | raise e S2 =>
        have := (execStep_good ms g O S hg).1
        rw [hstep] at this
        exact this
      | next S2 =>
        have := (execStep_good ms g O S hg).1
        rw [hstep] at this
        exact ih S2 this
    · rw [if_neg hlt]; exact hg

theorem nodup_subset_length {l1 l2 : List String} (h1 : l1.Nodup)
    (h2 : ∀ x ∈ l1, x ∈ l2) : l1.length ≤ l2.length := by
  calc l1.length = l1.toFinset.card := (List.toFinset_card_of_nodup h1).symm
    _ ≤ l2.toFinset.card := by
        apply Finset.card_le_card
        intro a ha
        rw [List.mem_toFinset] at ha ⊢
        exact h2 a ha
    _ ≤ l2.length := List.toFinset_card_le l2

theorem collectLoop_submitted (O : Oracle) (round : Nat) :
    ∀ (l : List String) (S : ExecState),
      ((collectLoop O round l S).state).submitted = S.submitted := by
  intro l
  induction l with
  | nil => intro S; rfl
  | cons x rest ih =>
    intro S
    cases hOx : O round x with
    | running => simp only [collectLoop, hOx]; exact ih S
    | raised msg => simp only [collectLoop, hOx]; rfl
    | finished => simp only [collectLoop, hOx]; exact ih _

/-- C4 (amended): the admission loop never consults `max_concurrency`:
every ready (available) unit is submitted to the pool in the very
iteration in which it becomes ready, so the in-flight set is bounded by
the size of the work set, not by the concurrency budget (first conjunct:
every available unit's label is in the submitted log after one step;
second conjunct: the in-flight set never exceeds the number of work
units).  The budget only sizes the worker pool
(`ThreadPoolExecutor(max_workers=concurrency)`), which is outside the
schedule state. -/
theorem c4_amended_admission_ignores_budget :
    (∀ (ms : List (String × Strategy)) (g : List (String × List String))
       (O : Oracle) (S : ExecState) (x : String) (y : Strategy),
       (x, y) ∈ availableOf ms g S →
       x ∈ (((execStep ms g O S).state).submitted).map Prod.fst) ∧
    (∀ (ms : List (String × Strategy)) (g : List (String × List String))
       (O : Oracle) (fuel : Nat),
       (((execLoop ms g O fuel ⟨[], [], [], 0⟩).state).inFlight).length ≤
         ms.length) := by
  constructor
  · intro ms g O S x y hav
    obtain ⟨hms, hdone, hfl, hfilter⟩ := availableOf_mem ms g S x y hav
    have hne : (availableOf ms g S).isEmpty = false := by
      cases hemp : (availableOf ms g S).isEmpty
      · rfl
      · rw [List.isEmpty_iff] at hemp
        rw [hemp] at hav
        cases hav
    have hcond :
        ¬ (((availableOf ms g S).isEmpty && (blockedOf ms g S).isEmpty) = true) := by
      simp [hne]
    rw [execStep, if_neg hcond]
    obtain ⟨newS, heq, hsubav, hnd, hnew, hcomp⟩ :=
      admitLoop_spec (availableOf ms g S) S
    simp only [heq]
    rw [collectLoop_submitted]
    have hx : x ∈ S.inFlight ++ newS.map Prod.fst := hcomp x y hav hdone
    rcases List.mem_append.mp hx with h | h
    · exact absurd h hfl
    · rcases List.mem_map.mp h with ⟨p, hp, hpe⟩
      exact List.mem_map.mpr ⟨p, List.mem_append.mpr (Or.inr hp), hpe⟩
  · intro ms g O fuel
    have hinit : GoodState ms (⟨[], [], [], 0⟩ : ExecState) := by
      refine ⟨List.nodup_nil, List.nodup_nil, ?_, ?_, ?_⟩ <;>
        intro x hx <;> cases hx
    have hg := execLoop_good ms g O fuel _ hinit
    calc (((execLoop ms g O fuel ⟨[], [], [], 0⟩).state).inFlight).length ≤
        (ms.map Prod.fst).length := nodup_subset_length hg.2.1 hg.2.2.2.1
      _ = ms.length := List.length_map _ _

/-- C4 (amended) witness: with a single ready unit, one step of the
admission loop submits it. -/
theorem c4_amended_witness :
    ("app.A", stratPlain) ∈
      availableOf [("app.A", stratPlain)] [("app.A", [])] ⟨[], [], [], 0⟩ ∧
    "app.A" ∈ (((execStep [("app.A", stratPlain)] [("app.A", [])] oracleSlow
      ⟨[], [], [], 0⟩).state).submitted).map Prod.fst :=
  ⟨by decide,
   c4_amended_admission_ignores_budget.1 [("app.A", stratPlain)]
     [("app.A", [])] oracleSlow ⟨[], [], [], 0⟩ "app.A" stratPlain (by decide)⟩

/-! ### C6 (amended): the sort ignores out-of-work-set dependencies, but
the returned graph retains them and the executor never drops them -/

theorem mapM_ok_forward {α β : Type} (f : α → Except PyErr β) :
    ∀ (l : List α) (rs : List β), l.mapM f = .ok rs →
      ∀ a ∈ l, ∃ r ∈ rs, f a = .ok r := by
  intro l
  induction l with
  | nil =>
    intro rs _ a ha
    cases ha
  | cons a l ih =>
    intro rs h b hb
    rw [List.mapM_cons] at h
    cases hfa : f a with
    | error e => rw [hfa] at h; cases h
    | ok r =>
      rw [hfa] at h
      cases hfl : l.mapM f with
      | error e => rw [hfl] at h; cases h
      | ok bs =>
        rw [hfl] at h
        simp only [bind, Except.bind, pure, Except.pure] at h
        injection h with h
        subst h
        rcases List.mem_cons.mp hb with hb | hb
        · subst hb
          exact ⟨r, List.mem_cons_self _ _, hfa⟩
        · obtain ⟨r2, hr2, hfr2⟩ := ih bs hfl b hb
          exact ⟨r2, List.mem_cons_of_mem _ hr2, hfr2⟩

theorem dictGet_dictInsert_self (k : String) (v : List String) :
    ∀ d, dictGet (dictInsert k v d) k = some v := by
  intro d
  induction d with
  | nil => simp [dictInsert, dictGet]
  | cons e rest ih =>
    obtain ⟨k2, v2⟩ := e
    by_cases hk : k2 = k
    · subst hk
      simp [dictInsert, dictGet]
    · simp only [dictInsert, if_neg hk, dictGet]
      exact ih

theorem dictGet_dictInsert_other (k : String) (v : List String) (q : String)
    (hq : q ≠ k) : ∀ d, dictGet (dictInsert k v d) q = dictGet d q := by
  intro d
  induction d with
  | nil =>
    simp only [dictInsert, dictGet]
    rw [if_neg (fun h => hq h.symm)]
  | cons e rest ih =>
    obtain ⟨k2, v2⟩ := e
    by_cases hk : k2 = k
    · subst hk
      simp only [dictInsert, if_pos rfl, dictGet]
      rw [if_neg (fun h => hq h.symm), if_neg (fun h => hq h.symm)]
    · simp only [dictInsert, if_neg hk, dictGet]
      by_cases hq2 : k2 = q
      · rw [if_pos hq2, if_pos hq2]
      · rw [if_neg hq2, if_neg hq2]
        exact ih

theorem graph_fold_preserves (env : Env) :
    ∀ (rest : List (String × List (Option String)))
      (g1 g : List (String × List String)) (k : String),
      (rest.foldlM (fun g p => do
          let labels ← p.2.mapM (to_app_model_label env)
          pure (dictInsert (modelLabel env p.1) labels.dedup g)) g1) = .ok g →
      (∀ p ∈ rest, modelLabel env p.1 ≠ k) →
      dictGet g k = dictGet g1 k := by
  intro rest
  induction rest with
  | nil =>
    intro g1 g k h _
    simp only [List.foldlM_nil, pure, Except.pure] at h
    injection h with h
    subst h
    rfl
  | cons p rest ih =>
    intro g1 g k h hne
    rw [List.foldlM_cons] at h
    cases hlab : p.2.mapM (to_app_model_label env) with
    | error e =>
      rw [hlab] at h
      simp only [bind, Except.bind] at h
      cases h
    | ok labels =>
      rw [hlab] at h
      simp only [bind, Except.bind, pure, Except.pure] at h
      have := ih _ g k h (fun q hq => hne q (List.mem_cons_of_mem _ hq))
      rw [this]
      exact dictGet_dictInsert_other _ _ k
        (fun he => hne p (List.mem_cons_self _ _) he.symm) g1

theorem graph_fold_get (env : Env) :
    ∀ (mdeps : List (String × List (Option String)))
      (g0 g : List (String × List String)),
      (mdeps.foldlM (fun g p => do
          let labels ← p.2.mapM (to_app_model_label env)
          pure (dictInsert (modelLabel env p.1) labels.dedup g)) g0) = .ok g →
      (mdeps.map (fun p => modelLabel env p.1)).Nodup →
      ∀ m deps, (m, deps) ∈ mdeps →
        ∃ labels, deps.mapM (to_app_model_label env) = .ok labels ∧
          dictGet g (modelLabel env m) = some labels.dedup := by
  intro mdeps
  induction mdeps with
  | nil =>
    intro g0 g _ _ m deps hmem
    cases hmem
  | cons p rest ih =>
    intro g0 g h hinj m deps hmem
    rw [List.foldlM_cons] at h
    cases hlab : p.2.mapM (to_app_model_label env) with
    | error e =>
      rw [hlab] at h
      simp only [bind, Except.bind] at h
      cases h
    | ok labels =>
      rw [hlab] at h
      simp only [bind, Except.bind, pure, Except.pure] at h
      rcases List.mem_cons.mp hmem with hmem | hmem
      · have hp : p = (m, deps) := hmem.symm
        subst hp
        refine ⟨labels, hlab, ?_⟩
        have hpre := graph_fold_preserves env rest _ g (modelLabel env m) h ?_
        · rw [hpre]
          exact dictGet_dictInsert_self _ _ g0
        · intro q hq he
          have := (List.nodup_cons.mp hinj).1
          exact this (List.mem_map.mpr ⟨q, hq, he⟩)
      · exact ih _ g h (List.nodup_cons.mp hinj).2 m deps hmem

theorem execStep_never_submits_blocked (ms : List (String × Strategy))
    (g : List (String × List String)) (O : Oracle) (x d : String)
    (hd : d ∈ graphGet g x) (hdabs : d ∉ ms.map Prod.fst) (S : ExecState)
    (hg : GoodState ms S) (hfree : ∀ p ∈ S.submitted, p.1 ≠ x) :
    ∀ p ∈ ((execStep ms g O S).state).submitted, p.1 ≠ x := by
  intro p hp
  rcases (execStep_good ms g O S hg).2.1 p hp with h | h
  · exact hfree p h
  · obtain ⟨a, b⟩ := p
    obtain ⟨_, hdone, _, hfilter⟩ := availableOf_mem ms g S a b h
    intro he
    subst he
    have hddone : d ∉ S.done := by
      intro hmem
      exact hdabs (hg.2.2.1 d hmem)
    have : d ∈ (graphGet g a).filter (fun q => decide (q ∉ S.done)) :=
      List.mem_filter.mpr ⟨hd, by simpa using hddone⟩
    rw [hfilter] at this
    cases this

theorem execLoop_never_submits_blocked (ms : List (String × Strategy))
    (g : List (String × List String)) (O : Oracle) (x d : String)
    (hd : d ∈ graphGet g x) (hdabs : d ∉ ms.map Prod.fst) :
    ∀ (fuel : Nat) (S : ExecState), GoodState ms S →
      (∀ p ∈ S.submitted, p.1 ≠ x) →
      ∀ p ∈ ((execLoop ms g O fuel S).state).submitted, p.1 ≠ x := by
  intro fuel
  induction fuel with
  | zero =>
    intro S hg hfree
    rw [execLoop]
    by_cases hlt : S.done.length < ms.length
    · rw [if_pos hlt]; exact hfree
    · rw [if_neg hlt]; exact hfree
  | succ fuel ih =>
    intro S hg hfree
    rw [execLoop]
    by_cases hlt : S.done.length < ms.length
    · rw [if_pos hlt]
      have hstep := execStep_never_submits_blocked ms g O x d hd hdabs S hg hfree
      have hgood := (execStep_good ms g O S hg).1
      cases hstep2 : execStep ms g O S with
      | raise e S2 =>
        rw [hstep2] at hstep
        exact hstep
      | next S2 =>
        rw [hstep2] at hstep hgood
        exact ih S2 hgood hstep
    · rw [if_neg hlt]; exact hfree

/-- C6 (amended): dependency edges pointing to EntityTypes absent from the
work set are ignored by the *sequencer's* readiness test, but they are
*not* dropped from the dependency graph, and the concurrent executor does
not treat them as satisfied.  First conjunct: every computed dependency of
a model — present in the work set or not — appears in the returned graph
entry for that model.  Second conjunct: a unit whose graph entry contains
a label that is not a work-set label is never submitted by the concurrent
admission loop (it blocks forever instead of being treated as
pre-satisfied). -/
theorem c6_amended_graph_retains_and_executor_blocks :
    (∀ (env : Env) (mdeps : List (String × List (Option String)))
       (graph : List (String × List String)) (m : String)
       (deps : List (Option String)) (d : String),
       build_dependency_graph env mdeps = .ok graph →
       (mdeps.map (fun p => modelLabel env p.1)).Nodup →
       (m, deps) ∈ mdeps → some d ∈ deps →
       modelLabel env d ∈ graphGet graph (modelLabel env m)) ∧
    (∀ (ms : List (String × Strategy)) (g : List (String × List String))
       (O : Oracle) (fuel : Nat) (x d : String),
       d ∈ graphGet g x → d ∉ ms.map Prod.fst →
       ∀ p ∈ ((execLoop ms g O fuel ⟨[], [], [], 0⟩).state).submitted,
         p.1 ≠ x) := by
  constructor
  · intro env mdeps graph m deps d hbuild hinj hmem hdep
    obtain ⟨labels, hlab, hget⟩ :=
      graph_fold_get env mdeps [] graph hbuild hinj m deps hmem
    obtain ⟨r, hr, hfr⟩ := mapM_ok_forward _ deps labels hlab (some d) hdep
    have hrd : r = modelLabel env d := by
      simp only [to_app_model_label] at hfr
      injection hfr with h
      exact h.symm
    subst hrd
    unfold graphGet
    rw [hget]
    simpa using List.mem_dedup.mpr hr
  · intro ms g O fuel x d hd hdabs
    refine execLoop_never_submits_blocked ms g O x d hd hdabs fuel _ ?_ ?_
    · refine ⟨List.nodup_nil, List.nodup_nil, ?_, ?_, ?_⟩ <;>
        intro q hq <;> cases hq
    · intro p hp
      cases hp

/-- C6 (amended) witness: for the one-unit work set `[app.B]` whose model
references the absent `app.A`, the edge to `app.A` is retained in the
graph built for it, and the executor never submits `app.B` when its graph
entry names the absent `app.A`. -/
theorem c6_amended_witness :
    modelLabel envMain "app.A" ∈
      graphGet [("app.B", ["app.A"])] (modelLabel envMain "app.B") ∧
    (∀ p ∈ ((execLoop [("app.B", stratPlain)] [("app.B", ["app.A"])]
        oracleFast 3 ⟨[], [], [], 0⟩).state).submitted, p.1 ≠ "app.B") :=
  ⟨c6_amended_graph_retains_and_executor_blocks.1 envMain
      [("app.B", [some "app.A"])] [("app.B", ["app.A"])] "app.B"
      [some "app.A"] "app.A" (by decide) (by decide) (by decide) (by decide),
   c6_amended_graph_retains_and_executor_blocks.2 [("app.B", stratPlain)]
      [("app.B", ["app.A"])] oracleFast 3 "app.B" "app.A" (by decide)
      (by decide)⟩

/-! ### Lemmas about the build phase of `sort_model_strategies` -/

theorem build_models_eq_keys (env : Env) :
    ∀ (ws : List (String × List Strategy))
      (mdeps : List (String × List (Option String))) (models : List String),
      build_model_dependencies env ws = .ok (mdeps, models) →
      models = mdeps.map Prod.fst := by
  intro ws
  induction ws with
  | nil =>
    intro mdeps models h
    simp only [build_model_dependencies] at h
    injection h with h
    injection h with h1 h2
    rw [← h1, ← h2]
    rfl
  | cons e rest ih =>
    intro mdeps models h
    obtain ⟨label, ss⟩ := e
    simp only [build_model_dependencies, bind, Except.bind] at h
    cases hto : to_model env label with
    | error e2 =>
      simp only [hto] at h
      exact Except.noConfusion h
    | ok m? =>
      simp only [hto] at h
      cases m? with
      | none => exact ih mdeps models h
      | some m =>
        cases hmd : modelDeps env m ss with
        | error e2 =>
          simp only [hmd] at h
          exact Except.noConfusion h
        | ok deps =>
          simp only [hmd] at h
          cases hbr : build_model_dependencies env rest with
          | error e2 =>
            simp only [hbr] at h
            exact Except.noConfusion h
          | ok p =>
            obtain ⟨md2, ms2⟩ := p
            simp only [hbr, pure, Except.pure] at h
            injection h with h
            injection h with h1 h2
            rw [← h1, ← h2, List.map_cons]
            rw [ih md2 ms2 hbr]

theorem build_skip (env : Env) (l : String) (ss : List Strategy)
    (hnone : to_model env l = .ok none) :
    ∀ (pre post : List (String × List Strategy)),
      build_model_dependencies env (pre ++ (l, ss) :: post) =
        build_model_dependencies env (pre ++ post) := by
  intro pre
  induction pre with
  | nil =>
    intro post
    simp only [List.nil_append, build_model_dependencies, bind, Except.bind,
      hnone]
  | cons e pre2 ih =>
    intro post
    obtain ⟨l2, ss2⟩ := e
    simp only [List.cons_append, build_model_dependencies, bind, Except.bind]
    cases hto : to_model env l2 with
    | error e2 => simp only [hto]
    | ok m? =>
      simp only [hto]
      cases m? with
      | none => exact ih post
      | some m =>
        cases hmd : modelDeps env m ss2 with
        | error e2 => simp only [hmd]
        | ok deps =>
          simp only [hmd, List.append_eq]
          rw [ih post]

/-! ### Lemmas about the peeling passes of `sort_model_strategies` -/

theorem runPass_changed_stays (models : List String) :
    ∀ (items : List (String × List (Option String))) (mlist : List String)
      (sk : List (String × List (Option String))),
      (runPass models items mlist sk true).2.2 = true := by
  intro items
  induction items with
  | nil => intro mlist sk; rfl
  | cons it tl ih =>
    intro mlist sk
    obtain ⟨m, deps⟩ := it
    rw [runPass]
    by_cases hr : deps.all (depOk models mlist) = true
    · rw [if_pos hr]; exact ih _ _
    · rw [if_neg hr]; exact ih _ _

theorem runPass_hitReady (models : List String) :
    ∀ (items : List (String × List (Option String))) (mlist : List String)
      (sk : List (String × List (Option String))) (ch : Bool)
      (m : String) (deps : List (Option String)),
      (m, deps) ∈ items → deps.all (depOk models mlist) = true →
      (runPass models items mlist sk ch).2.2 = true := by
  intro items
  induction items with
  | nil =>
    intro _ _ _ _ _ hmem _
    cases hmem
  | cons it tl ih =>
    intro mlist sk ch m deps hmem hready
    obtain ⟨m2, deps2⟩ := it
    rw [runPass]
    by_cases hr : deps2.all (depOk models mlist) = true
    · rw [if_pos hr]; exact runPass_changed_stays models tl _ sk
    · rw [if_neg hr]
      rcases List.mem_cons.mp hmem with hmem | hmem
      · injection hmem with h1 h2
        subst h1
        subst h2
        exact absurd hready hr
      · exact ih mlist _ ch m deps hmem hready

theorem runPass_unchanged (models : List String) :
    ∀ (items : List (String × List (Option String))) (mlist : List String)
      (sk : List (String × List (Option String))) (ch : Bool),
      (runPass models items mlist sk ch).2.2 = false →
      runPass models items mlist sk ch = (mlist, sk ++ items, ch) ∧
      (∀ it ∈ items, it.2.all (depOk models mlist) = false) := by
  intro items
  induction items with
  | nil =>
    intro mlist sk ch _
    refine ⟨by rw [runPass, List.append_nil], ?_⟩
    intro it hit
    cases hit
  | cons it tl ih =>
    intro mlist sk ch hch
    obtain ⟨m, deps⟩ := it
    rw [runPass] at hch ⊢
    by_cases hr : deps.all (depOk models mlist) = true
    · rw [if_pos hr] at hch
      rw [runPass_changed_stays models tl _ sk] at hch
      cases hch
    · rw [if_neg hr] at hch ⊢
      obtain ⟨heq, hall⟩ := ih mlist (sk ++ [(m, deps)]) ch hch
      refine ⟨by rw [heq]; simp, ?_⟩
      intro it hit
      rcases List.mem_cons.mp hit with hit | hit
      · subst hit
        simpa using hr
      · exact hall it hit

theorem mapM_congr {α β : Type} (f1 f2 : α → Except PyErr β) :
    ∀ (l : List α), (∀ a ∈ l, f1 a = f2 a) → l.mapM f1 = l.mapM f2 := by
  intro l
  induction l with
  | nil => intro _; rfl
  | cons a l ih =>
    intro h
    rw [List.mapM_cons, List.mapM_cons, h a (List.mem_cons_self _ _),
      ih (fun b hb => h b (List.mem_cons_of_mem _ hb))]

theorem dictGet_middle {β : Type} (l : String) (v : β) (q : String)
    (hq : q ≠ l) :
    ∀ (pre post : List (String × β)),
      dictGet (pre ++ (l, v) :: post) q = dictGet (pre ++ post) q := by
  intro pre
  induction pre with
  | nil =>
    intro post
    simp only [List.nil_append, dictGet]
    rw [if_neg (fun h => hq h.symm)]
  | cons e pre2 ih =>
    intro post
    obtain ⟨k2, v2⟩ := e
    simp only [List.cons_append, dictGet]
    by_cases hk : k2 = q
    · rw [if_pos hk, if_pos hk]
    · rw [if_neg hk, if_neg hk]
      exact ih post

theorem mem_dictInsert {k : String} {v : List String}
    {d : List (String × List String)} {kv : String × List String}
    (h : kv ∈ dictInsert k v d) : kv.1 = k ∨ kv ∈ d := by
  induction d with
  | nil =>
    simp only [dictInsert] at h
    rcases List.mem_singleton.mp h with h
    rw [h]
    exact Or.inl rfl
  | cons e rest ih =>
    obtain ⟨k2, v2⟩ := e
    simp only [dictInsert] at h
    by_cases hk : k2 = k
    · rw [if_pos hk] at h
      rcases List.mem_cons.mp h with h | h
      · rw [h]; exact Or.inl rfl
      · exact Or.inr (List.mem_cons_of_mem _ h)
    · rw [if_neg hk] at h
      rcases List.mem_cons.mp h with h | h
      · rw [h]; exact Or.inr (List.mem_cons_self _ _)
      · rcases ih h with h | h
        · exact Or.inl h
        · exact Or.inr (List.mem_cons_of_mem _ h)

theorem graph_fold_keys (env : Env) :
    ∀ (mdeps : List (String × List (Option String)))
      (g0 g : List (String × List String)),
      (mdeps.foldlM (fun g p => do
          let labels ← p.2.mapM (to_app_model_label env)
          pure (dictInsert (modelLabel env p.1) labels.dedup g)) g0) = .ok g →
      ∀ kv ∈ g, kv ∈ g0 ∨ ∃ p ∈ mdeps, kv.1 = modelLabel env p.1 := by
  intro mdeps
  induction mdeps with
  | nil =>
    intro g0 g h kv hkv
    simp only [List.foldlM_nil, pure, Except.pure] at h
    injection h with h
    subst h
    exact Or.inl hkv
  | cons p rest ih =>
    intro g0 g h kv hkv
    rw [List.foldlM_cons] at h
    cases hlab : p.2.mapM (to_app_model_label env) with
    | error e =>
      rw [hlab] at h
      simp only [bind, Except.bind] at h
      cases h
    | ok labels =>
      rw [hlab] at h
      simp only [bind, Except.bind, pure, Except.pure] at h
      rcases ih _ g h kv hkv with h2 | h2
      · rcases mem_dictInsert h2 with h3 | h3
        · exact Or.inr ⟨p, List.mem_cons_self _ _, h3⟩
        · exact Or.inl h3
      · obtain ⟨q, hq, hqe⟩ := h2
        exact Or.inr ⟨q, List.mem_cons_of_mem _ hq, hqe⟩

theorem runPass_subsets (models : List String) :
    ∀ (items : List (String × List (Option String))) (mlist : List String)
      (sk : List (String × List (Option String))) (ch : Bool),
      (∀ x ∈ (runPass models items mlist sk ch).1,
        x ∈ mlist ∨ x ∈ items.map Prod.fst) ∧
      (∀ it ∈ (runPass models items mlist sk ch).2.1, it ∈ sk ∨ it ∈ items) := by
  intro items
  induction items with
  | nil =>
    intro mlist sk ch
    rw [runPass]
    exact ⟨fun x hx => Or.inl hx, fun it hit => Or.inl hit⟩
  | cons it tl ih =>
    intro mlist sk ch
    obtain ⟨m, deps⟩ := it
    rw [runPass]
    by_cases hr : deps.all (depOk models mlist) = true
    · rw [if_pos hr]
      constructor
      · intro x hx
        rcases (ih (mlist ++ [m]) sk true).1 x hx with h | h
        · rcases List.mem_append.mp h with h | h
          · exact Or.inl h
          · rw [List.mem_singleton.mp h]
            exact Or.inr (by simp)
        · exact Or.inr (List.mem_cons_of_mem _ h)
      · intro q hq
        rcases (ih (mlist ++ [m]) sk true).2 q hq with h | h
        · exact Or.inl h
        · exact Or.inr (List.mem_cons_of_mem _ h)
    · rw [if_neg hr]
      constructor
      · intro x hx
        rcases (ih mlist (sk ++ [(m, deps)]) ch).1 x hx with h | h
        · exact Or.inl h
        · exact Or.inr (List.mem_cons_of_mem _ h)
      · intro q hq
        rcases (ih mlist (sk ++ [(m, deps)]) ch).2 q hq with h | h
        · rcases List.mem_append.mp h with h | h
          · exact Or.inl h
          · rw [List.mem_singleton.mp h]
            exact Or.inr (List.mem_cons_self _ _)
        · exact Or.inr (List.mem_cons_of_mem _ h)

theorem sortLoop_ok_subset (env : Env) (models : List String) :
    ∀ (fuel : Nat) (procList : List (String × List (Option String)))
      (mlist out : List String),
      sortLoop env models fuel mlist procList = .ok out →
      ∀ x ∈ out, x ∈ mlist ∨ x ∈ procList.map Prod.fst := by
  intro fuel
  induction fuel with
  | zero =>
    intro procList mlist out h x hx
    cases procList with
    | nil =>
      rw [sortLoop] at h
      injection h with h
      subst h
      exact Or.inl hx
    | cons p ps =>
      rw [sortLoop] at h
      cases h
  | succ fuel ih =>
    intro procList mlist out h x hx
    cases procList with
    | nil =>
      rw [sortLoop] at h
      injection h with h
      subst h
      exact Or.inl hx
    | cons p ps =>
      rw [sortLoop] at h
      by_cases hch : (runPass models (p :: ps) mlist [] false).2.2 = true
      · rw [if_pos hch] at h
        rcases ih _ _ _ h x hx with h2 | h2
        · rcases (runPass_subsets models (p :: ps) mlist [] false).1 x h2 with h3 | h3
          · exact Or.inl h3
          · exact Or.inr h3
        · rw [List.map_reverse, List.mem_reverse] at h2
          rcases List.mem_map.mp h2 with ⟨q, hq, hqe⟩
          rcases (runPass_subsets models (p :: ps) mlist [] false).2 q hq with h3 | h3
          · cases h3
          · exact Or.inr (hqe ▸ List.mem_map.mpr ⟨q, h3, rfl⟩)
      · rw [if_neg hch] at h
        cases h

/-- C10: a work-set entry whose EntityType label does not resolve to a
known model is silently skipped by `sort_model_strategies`: sequencing
behaves exactly as if the entry were absent (first conjunct), and whenever
sequencing succeeds, neither the ordered work-unit output nor the returned
dependency graph mentions the entry's label (second conjunct) — the
entry's units are neither scheduled nor the cause of an error. -/
theorem c10_unresolvable_entry_silently_omitted (env : Env)
    (pre post : List (String × List Strategy)) (l : String)
    (ss : List Strategy) (mdeps : List (String × List (Option String)))
    (models : List String)
    (hnone : to_model env l = .ok none)
    (hbuild : build_model_dependencies env (pre ++ post) = .ok (mdeps, models))
    (hlab : ∀ m ∈ models, modelLabel env m ≠ l) :
    sort_model_strategies env (pre ++ (l, ss) :: post) =
      sort_model_strategies env (pre ++ post) ∧
    (∀ out graph,
      sort_model_strategies env (pre ++ (l, ss) :: post) = .ok (out, graph) →
      (∀ p ∈ out, p.1 ≠ l) ∧ (∀ kv ∈ graph, kv.1 ≠ l)) := by
  have hb1 : build_model_dependencies env (pre ++ (l, ss) :: post) =
      .ok (mdeps, models) := by
    rw [build_skip env l ss hnone pre post]
    exact hbuild
  have hkeys : models = mdeps.map Prod.fst :=
    build_models_eq_keys env _ _ _ hbuild
  have heq : sort_model_strategies env (pre ++ (l, ss) :: post) =
      sort_model_strategies env (pre ++ post) := by
    unfold sort_model_strategies
    simp only [bind, Except.bind, hb1, hbuild]
    cases hg : build_dependency_graph env mdeps with
    | error e => rfl
    | ok g =>
      cases hl2 : sortLoop env models mdeps.length [] mdeps with
      | error e => rfl
      | ok mlist =>
        have hsub : ∀ m ∈ mlist, m ∈ models := by
          intro m hm
          rcases sortLoop_ok_subset env models _ _ _ _ hl2 m hm with h | h
          · cases h
          · rw [hkeys]; exact h
        have hsame :
            mlist.mapM (strategiesFor (pre ++ (l, ss) :: post) env) =
            mlist.mapM (strategiesFor (pre ++ post) env) := by
          refine mapM_congr _ _ mlist ?_
          intro m hm
          unfold strategiesFor
          rw [dictGet_middle l ss (modelLabel env m) (hlab m (hsub m hm)) pre post]
        simp only [hsame]
  refine ⟨heq, ?_⟩
  intro out graph hok
  rw [heq] at hok
  unfold sort_model_strategies at hok
  simp only [bind, Except.bind, hbuild] at hok
  cases hg : build_dependency_graph env mdeps with
  | error e =>
    simp only [hg] at hok
    exact Except.noConfusion hok
  | ok g =>
    simp only [hg] at hok
    cases hl2 : sortLoop env models mdeps.length [] mdeps with
    | error e =>
      simp only [hl2] at hok
      exact Except.noConfusion hok
    | ok mlist =>
      simp only [hl2] at hok
      have hsub : ∀ m ∈ mlist, m ∈ models := by
        intro m hm
        rcases sortLoop_ok_subset env models _ _ _ _ hl2 m hm with h | h
        · cases h
        · rw [hkeys]; exact h
      cases hmap : mlist.mapM (strategiesFor (pre ++ post) env) with
      | error e =>
        rw [hmap] at hok
        exact Except.noConfusion hok
      | ok groups =>
        rw [hmap] at hok
        simp only [pure, Except.pure] at hok
        injection hok with hok
        injection hok with h1 h2
        constructor
        · intro p hp
          rw [← h1] at hp
          rcases List.mem_flatten.mp hp with ⟨grp, hgrp, hpg⟩
          obtain ⟨m, hm, hfm⟩ := mapM_ok_mem _ mlist groups hmap grp hgrp
          unfold strategiesFor at hfm
          cases hdg : dictGet (pre ++ post) (modelLabel env m) with
          | none =>
            rw [hdg] at hfm
            exact Except.noConfusion hfm
          | some ss2 =>
            rw [hdg] at hfm
            injection hfm with hfm
            rw [← hfm] at hpg
            rcases List.mem_map.mp hpg with ⟨s, _, hse⟩
            rw [← hse]
            exact hlab m (hsub m hm)
        · intro kv hkv
          have hgraph2 : (mdeps.foldlM (fun g p => do
              let labels ← p.2.mapM (to_app_model_label env)
              pure (dictInsert (modelLabel env p.1) labels.dedup g)) []) =
              Except.ok graph := by
            rw [← h2]
            exact hg
          rcases graph_fold_keys env mdeps [] graph hgraph2 kv hkv with h | h
          · cases h
          · obtain ⟨p, hp, hpe⟩ := h
            rw [hpe]
            apply hlab
            rw [hkeys]
            exact List.mem_map.mpr ⟨p, hp, rfl⟩

theorem runPass_skipped_sublen (models : List String) :
    ∀ (items : List (String × List (Option String))) (mlist : List String)
      (sk : List (String × List (Option String))) (ch : Bool),
      (runPass models items mlist sk ch).2.1.length ≤ sk.length + items.length ∧
      ((runPass models items mlist sk ch).2.2 = true →
        ch = true ∨
        (runPass models items mlist sk ch).2.1.length < sk.length + items.length) := by
  intro items
  induction items with
  | nil =>
    intro mlist sk ch
    rw [runPass]
    exact ⟨by simp, fun h => Or.inl h⟩
  | cons it tl ih =>
    intro mlist sk ch
    obtain ⟨m, deps⟩ := it
    rw [runPass]
    by_cases hr : deps.all (depOk models mlist) = true
    · rw [if_pos hr]
      constructor
      · calc (runPass models tl (mlist ++ [m]) sk true).2.1.length ≤
            sk.length + tl.length := (ih _ _ _).1
          _ ≤ sk.length + (tl.length + 1) := by omega
      · intro _
        right
        calc (runPass models tl (mlist ++ [m]) sk true).2.1.length ≤
            sk.length + tl.length := (ih _ _ _).1
          _ < sk.length + (tl.length + 1) := by omega
    · rw [if_neg hr]
      constructor
      · calc (runPass models tl mlist (sk ++ [(m, deps)]) ch).2.1.length ≤
            (sk ++ [(m, deps)]).length + tl.length := (ih _ _ _).1
          _ = sk.length + (tl.length + 1) := by simp; omega
      · intro hc
        rcases (ih mlist (sk ++ [(m, deps)]) ch).2 hc with h1 | h2
        · exact Or.inl h1
        · right
          calc (runPass models tl mlist (sk ++ [(m, deps)]) ch).2.1.length <
              (sk ++ [(m, deps)]).length + tl.length := h2
            _ = sk.length + (tl.length + 1) := by simp; omega

/-! ### Helper lemmas for the topological-order theorems -/

theorem append_singleton_cases {α : Type} {l1 l2 ml : List α} {m x : α}
    (h : l1 ++ m :: l2 = ml ++ [x]) :
    (l1 = ml ∧ m = x ∧ l2 = []) ∨
    (∃ l2b, l2 = l2b ++ [x] ∧ ml = l1 ++ m :: l2b) := by
  rcases List.eq_nil_or_concat l2 with h2 | ⟨l2b, y, h2⟩
  · subst h2
    have := List.append_inj' h (by rfl)
    obtain ⟨h3, h4⟩ := this
    injection h4 with h5
    exact Or.inl ⟨h3, h5, rfl⟩
  · rw [List.concat_eq_append] at h2
    subst h2
    have hre : l1 ++ m :: (l2b ++ [y]) = (l1 ++ m :: l2b) ++ [y] := by simp
    rw [hre] at h
    have := List.append_inj' h (by rfl)
    obtain ⟨h3, h4⟩ := this
    injection h4 with h5
    subst h5
    exact Or.inr ⟨l2b, rfl, h3.symm⟩

theorem key_unique {mdeps : List (String × List (Option String))}
    (hnodup : (mdeps.map Prod.fst).Nodup) :
    ∀ {m : String} {d1 d2 : List (Option String)},
      (m, d1) ∈ mdeps → (m, d2) ∈ mdeps → d1 = d2 := by
  induction mdeps with
  | nil =>
    intro m d1 d2 h1 _
    cases h1
  | cons e rest ih =>
    intro m d1 d2 h1 h2
    obtain ⟨k, v⟩ := e
    rw [List.map_cons, List.nodup_cons] at hnodup
    rcases List.mem_cons.mp h1 with h1 | h1 <;>
      rcases List.mem_cons.mp h2 with h2 | h2
    · injection h1 with h1a h1b
      injection h2 with h2a h2b
      rw [h1b, h2b]
    · injection h1 with h1a h1b
      exact absurd (List.mem_map.mpr ⟨(m, d2), h2, by rw [← h1a]⟩) hnodup.1
    · injection h2 with h2a h2b
      exact absurd (List.mem_map.mpr ⟨(m, d1), h1, by rw [← h2a]⟩) hnodup.1
    · exact ih hnodup.2 h1 h2

theorem all_depOk_iff {models mlist : List String}
    {deps : List (Option String)} :
    deps.all (depOk models mlist) = true ↔
      ∀ d, some d ∈ deps → d ∈ models → d ∈ mlist := by
  rw [List.all_eq_true]
  constructor
  · intro h d hd hdm
    have := h (some d) hd
    simp only [depOk, Bool.or_eq_true, decide_eq_true_eq] at this
    rcases this with h2 | h2
    · exact absurd hdm h2
    · exact h2
  · intro h x hx
    cases x with
    | none => rfl
    | some d =>
      simp only [depOk, Bool.or_eq_true, decide_eq_true_eq]
      by_cases hdm : d ∈ models
      · exact Or.inr (h d hx hdm)
      · exact Or.inl hdm

theorem acyclic_of_rank {mdeps : List (String × List (Option String))}
    (f : String → Nat) (h : ∀ t d, DepEdge mdeps t d → f d < f t) :
    AcyclicDeps mdeps := by
  intro t htg
  have hlt : ∀ a b, Relation.TransGen (DepEdge mdeps) a b → f b < f a := by
    intro a b h2
    induction h2 with
    | single hs => exact h _ _ hs
    | tail _ hs ih => exact lt_trans (h _ _ hs) ih
  exact absurd (hlt t t htg) (lt_irrefl _)

theorem posIn_before :
    ∀ (l1 : List String) (a : String) (l2 : List String) (b : String),
      (l1 ++ a :: l2).Nodup → b ∈ l1 →
      posIn (l1 ++ a :: l2) b < posIn (l1 ++ a :: l2) a := by
  intro l1
  induction l1 with
  | nil =>
    intro a l2 b _ hb
    cases hb
  | cons x rest ih =>
    intro a l2 b hnd hb
    have hxa : x ≠ a := by
      intro he
      rw [List.cons_append, List.nodup_cons] at hnd
      exact hnd.1 (he ▸ List.mem_append.mpr (Or.inr (List.mem_cons_self _ _)))
    rw [List.cons_append]
    by_cases hxb : x = b
    · rw [posIn, if_pos hxb, posIn, if_neg hxa]
      omega
    · rw [posIn, if_neg hxb, posIn, if_neg hxa]
      have hnd2 : (rest ++ a :: l2).Nodup := by
        rw [List.cons_append, List.nodup_cons] at hnd
        exact hnd.2
      have hb2 : b ∈ rest := by
        rcases List.mem_cons.mp hb with h | h
        · exact absurd h.symm hxb
        · exact h
      have := ih a l2 b hnd2 hb2
      omega

theorem exists_no_edge_into (R : String → String → Prop) (K : List String)
    (hne : K ≠ []) (hacyc : ∀ t, ¬ Relation.TransGen R t t) :
    ∃ m ∈ K, ∀ d ∈ K, ¬ R m d := by
  haveI hfin : Finite {x // x ∈ K} := (K.finite_toSet).to_subtype
  let r : {x // x ∈ K} → {x // x ∈ K} → Prop :=
    fun a b => Relation.TransGen R b.1 a.1
  haveI : IsTrans {x // x ∈ K} r :=
    ⟨fun _ _ _ hab hbc => Relation.TransGen.trans hbc hab⟩
  haveI : IsIrrefl {x // x ∈ K} r := ⟨fun a h => hacyc a.1 h⟩
  have wf := Finite.wellFounded_of_trans_of_irrefl r
  obtain ⟨x0, hx0⟩ := List.exists_mem_of_ne_nil K hne
  obtain ⟨m, _, hmin⟩ := wf.has_min Set.univ ⟨⟨x0, hx0⟩, Set.mem_univ _⟩
  refine ⟨m.1, m.2, ?_⟩
  intro d hd hedge
  exact hmin ⟨d, hd⟩ (Set.mem_univ _) (Relation.TransGen.single hedge)

theorem runPass_inv (mdeps : List (String × List (Option String)))
    (models : List String) (hmeq : models = mdeps.map Prod.fst)
    (hnodup : (mdeps.map Prod.fst).Nodup) :
    ∀ (items sk : List (String × List (Option String)))
      (mlist : List String) (ch : Bool),
      (∀ it ∈ items, it ∈ mdeps) → (∀ it ∈ sk, it ∈ mdeps) →
      (∀ k, k ∈ mdeps.map Prod.fst ↔
        k ∈ mlist ∨ k ∈ sk.map Prod.fst ∨ k ∈ items.map Prod.fst) →
      (mlist ++ (sk.map Prod.fst ++ items.map Prod.fst)).Nodup →
      SoundPrefix mdeps models mlist →
      (∀ m ∈ mlist, Resolvable mdeps m) →
      (∀ it ∈ (runPass models items mlist sk ch).2.1, it ∈ mdeps) ∧
      (∀ k, k ∈ mdeps.map Prod.fst ↔
        k ∈ (runPass models items mlist sk ch).1 ∨
        k ∈ (runPass models items mlist sk ch).2.1.map Prod.fst) ∧
      ((runPass models items mlist sk ch).1 ++
        (runPass models items mlist sk ch).2.1.map Prod.fst).Nodup ∧
      SoundPrefix mdeps models (runPass models items mlist sk ch).1 ∧
      (∀ m ∈ (runPass models items mlist sk ch).1, Resolvable mdeps m) := by
  intro items
  induction items with
  | nil =>
    intro sk mlist ch hsubI hsubS hcover hnd hsound hres
    rw [runPass]
    refine ⟨hsubS, ?_, ?_, hsound, hres⟩
    · intro k
      rw [hcover k]
      simp
    · simpa using hnd
  | cons it tl ih =>
    intro sk mlist ch hsubI hsubS hcover hnd hsound hres
    obtain ⟨m, deps⟩ := it
    have hitm : (m, deps) ∈ mdeps := hsubI _ (List.mem_cons_self _ _)
    rw [runPass]
    by_cases hr : deps.all (depOk models mlist) = true
    · rw [if_pos hr]
      apply ih sk (mlist ++ [m]) true
      · intro q hq
        exact hsubI q (List.mem_cons_of_mem _ hq)
      · exact hsubS
      · intro k
        rw [hcover k]
        simp only [List.map_cons, List.mem_append, List.mem_cons,
          List.mem_singleton]
        tauto
      · have hassoc : (mlist ++ [m]) ++ (sk.map Prod.fst ++ tl.map Prod.fst) =
            mlist ++ (m :: (sk.map Prod.fst ++ tl.map Prod.fst)) := by simp
        have hperm : List.Perm
            ((mlist ++ [m]) ++ (sk.map Prod.fst ++ tl.map Prod.fst))
            (mlist ++ (sk.map Prod.fst ++ m :: tl.map Prod.fst)) := by
          rw [hassoc]
          exact List.Perm.append_left mlist List.perm_middle.symm
        refine (hperm.nodup_iff).mpr ?_
        rw [List.map_cons] at hnd
        exact hnd
      · intro l1 m0 l2 hdec deps0 hmem0 d hd hdm
        rcases append_singleton_cases hdec.symm with ⟨h1, h2, _⟩ | ⟨l2b, _, h2⟩
        · subst h2
          subst h1
          have hdeq : deps0 = deps := key_unique hnodup hmem0 hitm
          rw [hdeq] at hd
          exact all_depOk_iff.mp hr d hd hdm
        · exact hsound l1 m0 l2b h2 deps0 hmem0 d hd hdm
      · intro q hq
        rcases List.mem_append.mp hq with hq | hq
        · exact hres q hq
        · rw [List.mem_singleton.mp hq]
          refine Resolvable.mk m deps hitm ?_
          intro d hd hdk
          exact hres d (all_depOk_iff.mp hr d hd (by rw [hmeq]; exact hdk))
    · rw [if_neg hr]
      apply ih (sk ++ [(m, deps)]) mlist ch
      · intro q hq
        exact hsubI q (List.mem_cons_of_mem _ hq)
      · intro q hq
        rcases List.mem_append.mp hq with hq | hq
        · exact hsubS q hq
        · rw [List.mem_singleton.mp hq]
          exact hitm
      · intro k
        rw [hcover k]
        simp only [List.map_cons, List.map_append, List.mem_append,
          List.mem_cons, List.mem_singleton, List.map_nil]
        tauto
      · have hassoc : mlist ++ ((sk ++ [(m, deps)]).map Prod.fst ++
            tl.map Prod.fst) =
            mlist ++ (sk.map Prod.fst ++ ((m, deps) :: tl).map Prod.fst) := by
          simp
        rw [hassoc]
        exact hnd
      · exact hsound
      · exact hres

theorem resolvable_in_mlist (mdeps : List (String × List (Option String)))
    (models mlist : List String)
    (resid : List (String × List (Option String)))
    (hmeq : models = mdeps.map Prod.fst)
    (hnodup : (mdeps.map Prod.fst).Nodup)
    (hsubP : ∀ it ∈ resid, it ∈ mdeps)
    (hcover : ∀ k, k ∈ mdeps.map Prod.fst ↔ k ∈ mlist ∨ k ∈ resid.map Prod.fst)
    (hstall : ∀ it ∈ resid, it.2.all (depOk models mlist) = false) :
    ∀ k, Resolvable mdeps k → k ∈ mlist := by
  intro k hk
  induction hk with
  | mk m deps hmem hchild ih =>
    have hmk : m ∈ mdeps.map Prod.fst := List.mem_map.mpr ⟨(m, deps), hmem, rfl⟩
    rcases (hcover m).mp hmk with h | h
    · exact h
    · exfalso
      rcases List.mem_map.mp h with ⟨q, hq, hqe⟩
      obtain ⟨qm, qdeps⟩ := q
      simp only at hqe
      subst hqe
      have hdeq : qdeps = deps := key_unique hnodup (hsubP _ hq) hmem
      subst hdeq
      have hfalse := hstall _ hq
      simp only at hfalse
      have hnotall : ¬ (qdeps.all (depOk models mlist) = true) := by
        rw [hfalse]
        exact Bool.false_ne_true
      rw [all_depOk_iff] at hnotall
      push_neg at hnotall
      obtain ⟨d, hd, hdm, hdnot⟩ := hnotall
      exact hdnot (ih d hd (by rw [← hmeq]; exact hdm))

theorem sortLoop_ok_inv (env : Env)
    (mdeps : List (String × List (Option String))) (models : List String)
    (hmeq : models = mdeps.map Prod.fst)
    (hnodup : (mdeps.map Prod.fst).Nodup) :
    ∀ (fuel : Nat) (procList : List (String × List (Option String)))
      (mlist out : List String),
      (∀ it ∈ procList, it ∈ mdeps) →
      (∀ k, k ∈ mdeps.map Prod.fst ↔ k ∈ mlist ∨ k ∈ procList.map Prod.fst) →
      (mlist ++ procList.map Prod.fst).Nodup →
      SoundPrefix mdeps models mlist →
      (∀ m ∈ mlist, Resolvable mdeps m) →
      sortLoop env models fuel mlist procList = .ok out →
      (∀ k, k ∈ mdeps.map Prod.fst ↔ k ∈ out) ∧ out.Nodup ∧
      SoundPrefix mdeps models out ∧ (∀ m ∈ out, Resolvable mdeps m) := by
  intro fuel
  induction fuel with
  | zero =>
    intro procList mlist out hsub hcover hnd hsound hres hok
    cases procList with
    | nil =>
      rw [sortLoop] at hok
      injection hok with hok
      subst hok
      refine ⟨?_, ?_, hsound, hres⟩
      · intro k; rw [hcover k]; simp
      · simpa using hnd
    | cons p ps =>
      rw [sortLoop] at hok
      cases hok
  | succ fuel ih =>
    intro procList mlist out hsub hcover hnd hsound hres hok
    cases procList with
    | nil =>
      rw [sortLoop] at hok
      injection hok with hok
      subst hok
      refine ⟨?_, ?_, hsound, hres⟩
      · intro k; rw [hcover k]; simp
      · simpa using hnd
    | cons p ps =>
      rw [sortLoop] at hok
      by_cases hch : (runPass models (p :: ps) mlist [] false).2.2 = true
      · rw [if_pos hch] at hok
        obtain ⟨hA, hB, hC, hD, hE⟩ := runPass_inv mdeps models hmeq hnodup
          (p :: ps) [] mlist false hsub (fun it hit => absurd hit
            (List.not_mem_nil it))
          (fun k => by rw [hcover k]; simp)
          (by simpa using hnd) hsound hres
        refine ih _ _ _ ?_ ?_ ?_ hD hE hok
        · intro it hit
          rw [List.mem_reverse] at hit
          exact hA it hit
        · intro k
          rw [hB k, List.map_reverse, List.mem_reverse]
        · have hperm : List.Perm
              ((runPass models (p :: ps) mlist [] false).1 ++
                ((runPass models (p :: ps) mlist [] false).2.1.reverse.map
                  Prod.fst))
              ((runPass models (p :: ps) mlist [] false).1 ++
                ((runPass models (p :: ps) mlist [] false).2.1.map Prod.fst)) := by
            refine List.Perm.append_left _ ?_
            rw [List.map_reverse]
            exact List.reverse_perm _
          exact hperm.nodup_iff.mpr hC
      · rw [if_neg hch] at hok
        cases hok

theorem sortLoop_success (env : Env)
    (mdeps : List (String × List (Option String))) (models : List String)
    (hmeq : models = mdeps.map Prod.fst)
    (hnodup : (mdeps.map Prod.fst).Nodup) (hacyc : AcyclicDeps mdeps) :
    ∀ (fuel : Nat) (procList : List (String × List (Option String)))
      (mlist : List String),
      procList.length ≤ fuel →
      (∀ it ∈ procList, it ∈ mdeps) →
      (∀ k, k ∈ mdeps.map Prod.fst ↔ k ∈ mlist ∨ k ∈ procList.map Prod.fst) →
      (mlist ++ procList.map Prod.fst).Nodup →
      SoundPrefix mdeps models mlist →
      (∀ m ∈ mlist, Resolvable mdeps m) →
      ∃ out, sortLoop env models fuel mlist procList = .ok out := by
  intro fuel
  induction fuel with
  | zero =>
    intro procList mlist hlen hsub hcover hnd hsound hres
    cases procList with
    | nil => exact ⟨mlist, by rw [sortLoop]⟩
    | cons p ps => simp at hlen
  | succ fuel ih =>
    intro procList mlist hlen hsub hcover hnd hsound hres
    cases procList with
    | nil => exact ⟨mlist, by rw [sortLoop]⟩
    | cons p ps =>
      have hKne : (p :: ps).map Prod.fst ≠ [] := by simp
      obtain ⟨m, hmK, hmin⟩ := exists_no_edge_into (DepEdge mdeps) _ hKne hacyc
      rcases List.mem_map.mp hmK with ⟨q, hq, hqe⟩
      obtain ⟨qm, qdeps⟩ := q
      simp only at hqe
      subst hqe
      have hqmd : (qm, qdeps) ∈ mdeps := hsub _ hq
      have hready : qdeps.all (depOk models mlist) = true := by
        rw [all_depOk_iff]
        intro d hd hdm
        have hdk : d ∈ mdeps.map Prod.fst := by rw [← hmeq]; exact hdm
        rcases (hcover d).mp hdk with h | h
        · exact h
        · exact absurd ⟨⟨qdeps, hqmd, hd⟩, hdk⟩ (hmin d h)
      have hch : (runPass models (p :: ps) mlist [] false).2.2 = true :=
        runPass_hitReady models (p :: ps) mlist [] false qm qdeps hq hready
      obtain ⟨hA, hB, hC, hD, hE⟩ := runPass_inv mdeps models hmeq hnodup
        (p :: ps) [] mlist false hsub (fun it hit => absurd hit
          (List.not_mem_nil it))
        (fun k => by rw [hcover k]; simp)
        (by simpa using hnd) hsound hres
      have hlen2 :
          (runPass models (p :: ps) mlist [] false).2.1.reverse.length ≤ fuel := by
        rcases (runPass_skipped_sublen models (p :: ps) mlist [] false).2 hch
            with h1 | h1
        · cases h1
        · rw [List.length_reverse]
          simp only [List.length_nil, List.length_cons] at h1 hlen ⊢
          omega
      obtain ⟨out, hout⟩ := ih _ _ hlen2
        (fun it hit => hA it (List.mem_reverse.mp hit))
        (fun k => by rw [hB k, List.map_reverse, List.mem_reverse])
        (by
          have hperm : List.Perm
              ((runPass models (p :: ps) mlist [] false).1 ++
                ((runPass models (p :: ps) mlist [] false).2.1.reverse.map
                  Prod.fst))
              ((runPass models (p :: ps) mlist [] false).1 ++
                ((runPass models (p :: ps) mlist [] false).2.1.map Prod.fst)) := by
            refine List.Perm.append_left _ ?_
            rw [List.map_reverse]
            exact List.reverse_perm _
          exact hperm.nodup_iff.mpr hC)
        hD hE
      exact ⟨out, by rw [sortLoop, if_pos hch]; exact hout⟩

theorem sortLoop_err_char (env : Env)
    (mdeps : List (String × List (Option String))) (models : List String)
    (hmeq : models = mdeps.map Prod.fst)
    (hnodup : (mdeps.map Prod.fst).Nodup) :
    ∀ (fuel : Nat) (procList : List (String × List (Option String)))
      (mlist : List String) (e : PyErr),
      procList.length ≤ fuel →
      (∀ it ∈ procList, it ∈ mdeps) →
      (∀ k, k ∈ mdeps.map Prod.fst ↔ k ∈ mlist ∨ k ∈ procList.map Prod.fst) →
      (mlist ++ procList.map Prod.fst).Nodup →
      SoundPrefix mdeps models mlist →
      (∀ m ∈ mlist, Resolvable mdeps m) →
      sortLoop env models fuel mlist procList = .error e →
      ∃ resid, e = .runtimeError (cycleErrorNames env resid) ∧ resid ≠ [] ∧
        (∀ it ∈ resid, it ∈ mdeps) ∧
        (∀ k, k ∈ resid.map Prod.fst ↔
          k ∈ mdeps.map Prod.fst ∧ ¬ Resolvable mdeps k) := by
  intro fuel
  induction fuel with
  | zero =>
    intro procList mlist e hlen hsub hcover hnd hsound hres herr
    cases procList with
    | nil =>
      rw [sortLoop] at herr
      cases herr
    | cons p ps => simp at hlen
  | succ fuel ih =>
    intro procList mlist e hlen hsub hcover hnd hsound hres herr
    cases procList with
    | nil =>
      rw [sortLoop] at herr
      cases herr
    | cons p ps =>
      rw [sortLoop] at herr
      by_cases hch : (runPass models (p :: ps) mlist [] false).2.2 = true
      · rw [if_pos hch] at herr
        obtain ⟨hA, hB, hC, hD, hE⟩ := runPass_inv mdeps models hmeq hnodup
          (p :: ps) [] mlist false hsub (fun it hit => absurd hit
            (List.not_mem_nil it))
          (fun k => by rw [hcover k]; simp)
          (by simpa using hnd) hsound hres
        have hlen2 :
            (runPass models (p :: ps) mlist [] false).2.1.reverse.length ≤
              fuel := by
          rcases (runPass_skipped_sublen models (p :: ps) mlist [] false).2 hch
              with h1 | h1
          · cases h1
          · rw [List.length_reverse]
            simp only [List.length_nil, List.length_cons] at h1 hlen ⊢
            omega
        refine ih _ _ e hlen2
          (fun it hit => hA it (List.mem_reverse.mp hit))
          (fun k => by rw [hB k, List.map_reverse, List.mem_reverse])
          ?_ hD hE herr
        have hperm : List.Perm
            ((runPass models (p :: ps) mlist [] false).1 ++
              ((runPass models (p :: ps) mlist [] false).2.1.reverse.map
                Prod.fst))
            ((runPass models (p :: ps) mlist [] false).1 ++
              ((runPass models (p :: ps) mlist [] false).2.1.map Prod.fst)) := by
          refine List.Perm.append_left _ ?_
          rw [List.map_reverse]
          exact List.reverse_perm _
        exact hperm.nodup_iff.mpr hC
      · rw [if_neg hch] at herr
        injection herr with herr
        obtain ⟨hreq, hstall⟩ := runPass_unchanged models (p :: ps) mlist []
          false (Bool.not_eq_true _ ▸ hch)
        refine ⟨(runPass models (p :: ps) mlist [] false).2.1, herr.symm, ?_,
          ?_, ?_⟩
        · rw [hreq]
          simp
        · intro it hit
          rw [hreq] at hit
          simp only [List.nil_append] at hit
          exact hsub it hit
        · intro k
          have hresid : (runPass models (p :: ps) mlist [] false).2.1 =
              p :: ps := by rw [hreq]; simp
          rw [hresid]
          constructor
          · intro hk
            refine ⟨(hcover k).mpr (Or.inr hk), ?_⟩
            intro hresk
            have hkin := resolvable_in_mlist mdeps models mlist (p :: ps) hmeq
              hnodup hsub hcover hstall k hresk
            have hdisj := (List.nodup_append.mp hnd).2.2
            exact hdisj hkin hk
          · intro ⟨hkk, hknres⟩
            rcases (hcover k).mp hkk with h | h
            · exact absurd (hres k h) hknres
            · exact h

theorem topo_posIn (mdeps : List (String × List (Option String)))
    (models out : List String) (hmeq : models = mdeps.map Prod.fst)
    (hnd : out.Nodup) (hcover : ∀ k, k ∈ mdeps.map Prod.fst ↔ k ∈ out)
    (hsound : SoundPrefix mdeps models out) :
    ∀ a b, Relation.TransGen (DepEdge mdeps) a b →
      posIn out b < posIn out a := by
  have hstep : ∀ a b, DepEdge mdeps a b → posIn out b < posIn out a := by
    intro a b hedge
    obtain ⟨⟨deps, hmem, hdep⟩, hbk⟩ := hedge
    have hak : a ∈ mdeps.map Prod.fst := List.mem_map.mpr ⟨(a, deps), hmem, rfl⟩
    have hao : a ∈ out := (hcover a).mp hak
    obtain ⟨l1, l2, hdec⟩ := List.append_of_mem hao
    have hbl1 : b ∈ l1 :=
      hsound l1 a l2 hdec deps hmem b hdep (by rw [hmeq]; exact hbk)
    rw [hdec]
    exact posIn_before l1 a l2 b (hdec ▸ hnd) hbl1
  intro a b htg
  induction htg with
  | single h => exact hstep _ _ h
  | tail _ h ih => exact lt_trans (hstep _ _ h) ih

/-! ### The Python string order is total and transitive -/

theorem lexLe_trans :
    ∀ (a b c : List Char), lexLe a b = true → lexLe b c = true →
      lexLe a c = true := by
  intro a
  induction a with
  | nil =>
    intro b c _ _
    rfl
  | cons x xs ih =>
    intro b c h1 h2
    cases b with
    | nil => cases h1
    | cons y ys =>
      cases c with
      | nil => cases h2
      | cons z zs =>
        rw [lexLe] at h1 h2 ⊢
        by_cases hxy : x = y
        · rw [if_pos hxy] at h1
          by_cases hyz : y = z
          · rw [if_pos hyz] at h2
            rw [if_pos (hxy.trans hyz)]
            exact ih ys zs h1 h2
          · rw [if_neg hyz] at h2
            have hyltz : y < z := of_decide_eq_true h2
            have hxltz : x < z := hxy ▸ hyltz
            rw [if_neg (by rw [hxy]; exact hyz)]
            exact decide_eq_true hxltz
        · rw [if_neg hxy] at h1
          have hxlty : x < y := of_decide_eq_true h1
          by_cases hyz : y = z
          · have hxltz : x < z := hyz ▸ hxlty
            rw [if_neg (ne_of_lt hxltz)]
            exact decide_eq_true hxltz
          · rw [if_neg hyz] at h2
            have hyltz : y < z := of_decide_eq_true h2
            have hxltz : x < z := lt_trans hxlty hyltz
            rw [if_neg (ne_of_lt hxltz)]
            exact decide_eq_true hxltz

theorem lexLe_total :
    ∀ (a b : List Char), lexLe a b = true ∨ lexLe b a = true := by
  intro a
  induction a with
  | nil =>
    intro b
    exact Or.inl rfl
  | cons x xs ih =>
    intro b
    cases b with
    | nil => exact Or.inr rfl
    | cons y ys =>
      rw [lexLe, lexLe]
      by_cases hxy : x = y
      · rw [if_pos hxy, if_pos hxy.symm]
        exact ih ys
      · rw [if_neg hxy, if_neg (fun h => hxy h.symm)]
        rcases lt_or_gt_of_ne hxy with h | h
        · exact Or.inl (decide_eq_true h)
        · exact Or.inr (decide_eq_true h)

theorem pyStrLe_trans (a b c : String) (h1 : pyStrLe a b = true)
    (h2 : pyStrLe b c = true) : pyStrLe a c = true :=
  lexLe_trans a.toList b.toList c.toList h1 h2

theorem pyStrLe_total (a b : String) :
    pyStrLe a b = true ∨ pyStrLe b a = true :=
  lexLe_total a.toList b.toList

instance nameOrder_total (env : Env) :
    IsTotal (String × List (Option String)) (nameOrder env) :=
  ⟨fun a b => pyStrLe_total (env.meta a.1).object_name (env.meta b.1).object_name⟩

instance nameOrder_trans (env : Env) :
    IsTrans (String × List (Option String)) (nameOrder env) :=
  ⟨fun a b c h1 h2 => pyStrLe_trans (env.meta a.1).object_name
    (env.meta b.1).object_name (env.meta c.1).object_name h1 h2⟩

/-- C2: when the dependency graph restricted to the active work set
contains a cycle (some model transitively depends on itself through
in-work-set dependencies), `sort_model_strategies` raises the
dependency-cycle `RuntimeError` instead of returning an order, and the
EntityTypes interpolated into its message are exactly the stuck ones — the
work-set models that are not `Resolvable`, i.e. those on or feeding the
cycle — stably sorted by the model's `__name__` (Python string order). -/
theorem c2_cycle_error_lists_stuck_sorted (env : Env)
    (ws : List (String × List Strategy))
    (mdeps : List (String × List (Option String))) (models : List String)
    (graph : List (String × List String)) (t : String)
    (hbuild : build_model_dependencies env ws = .ok (mdeps, models))
    (hnodup : (mdeps.map Prod.fst).Nodup)
    (hgraph : build_dependency_graph env mdeps = .ok graph)
    (hcycle : Relation.TransGen (DepEdge mdeps) t t) :
    ∃ resid,
      sort_model_strategies env ws =
        .error (.runtimeError (cycleErrorNames env resid)) ∧
      resid ≠ [] ∧
      (∀ k, k ∈ resid.map Prod.fst ↔
        k ∈ mdeps.map Prod.fst ∧ ¬ Resolvable mdeps k) ∧
      List.Perm (List.insertionSort (nameOrder env) resid) resid ∧
      List.Sorted (nameOrder env) (List.insertionSort (nameOrder env) resid) ∧
      cycleErrorNames env resid =
        (List.insertionSort (nameOrder env) resid).map
          (fun p => displayName env p.1) := by
  have hmeq : models = mdeps.map Prod.fst :=
    build_models_eq_keys env ws mdeps models hbuild
  have hsub0 : ∀ it ∈ mdeps, it ∈ mdeps := fun _ h => h
  have hcover0 : ∀ k, k ∈ mdeps.map Prod.fst ↔
      k ∈ ([] : List String) ∨ k ∈ mdeps.map Prod.fst := by
    intro k
    simp
  have hnd0 : (([] : List String) ++ mdeps.map Prod.fst).Nodup := by
    simpa using hnodup
  have hsound0 : SoundPrefix mdeps models [] := by
    intro l1 m l2 hdec deps hmem d hd hdm
    cases l1 with
    | nil => exact List.noConfusion hdec
    | cons a as => exact List.noConfusion hdec
  have hres0 : ∀ m ∈ ([] : List String), Resolvable mdeps m := by
    intro m hm
    cases hm
  cases hloop : sortLoop env models mdeps.length [] mdeps with
  | ok mlist =>
    exfalso
    obtain ⟨hcover, hnd, hsound, _⟩ := sortLoop_ok_inv env mdeps models hmeq
      hnodup mdeps.length mdeps [] mlist hsub0 hcover0 hnd0 hsound0 hres0 hloop
    exact absurd (topo_posIn mdeps models mlist hmeq hnd hcover hsound t t
      hcycle) (lt_irrefl _)
  | error e =>
    obtain ⟨resid, herr, hne, hsubR, hchar⟩ := sortLoop_err_char env mdeps
      models hmeq hnodup mdeps.length mdeps [] e (le_refl _) hsub0 hcover0
      hnd0 hsound0 hres0 hloop
    refine ⟨resid, ?_, hne, hchar, List.perm_insertionSort _ _,
      List.sorted_insertionSort _ _, rfl⟩
    unfold sort_model_strategies
    simp only [bind, Except.bind, hbuild, hgraph, hloop]
    rw [herr]

/-- C2 witness: the two-model cycle `{X: [Y], Y: [X]}` (declared through
handler dependencies) makes sequencing raise the dependency-cycle error,
whose message lists exactly `app.X` and `app.Y`, in name order. -/
theorem c2_cycle_error_witness :
    (∃ resid, sort_model_strategies envMain
        [("app.X", [⟨"sx", ["app.Y"]⟩]), ("app.Y", [⟨"sy", ["app.X"]⟩])] =
        .error (.runtimeError (cycleErrorNames envMain resid)) ∧
      resid ≠ [] ∧
      (∀ k, k ∈ resid.map Prod.fst ↔
        k ∈ ([("app.X", [some "app.Y"]), ("app.Y", [some "app.X"])].map
          Prod.fst) ∧
        ¬ Resolvable [("app.X", [some "app.Y"]), ("app.Y", [some "app.X"])] k) ∧
      List.Perm (List.insertionSort (nameOrder envMain) resid) resid ∧
      List.Sorted (nameOrder envMain)
        (List.insertionSort (nameOrder envMain) resid) ∧
      cycleErrorNames envMain resid =
        (List.insertionSort (nameOrder envMain) resid).map
          (fun p => displayName envMain p.1)) ∧
    sort_model_strategies envMain
        [("app.X", [⟨"sx", ["app.Y"]⟩]), ("app.Y", [⟨"sy", ["app.X"]⟩])] =
      .error (.runtimeError ["app.X", "app.Y"]) := by
  constructor
  · refine c2_cycle_error_lists_stuck_sorted envMain
      [("app.X", [⟨"sx", ["app.Y"]⟩]), ("app.Y", [⟨"sy", ["app.X"]⟩])]
      [("app.X", [some "app.Y"]), ("app.Y", [some "app.X"])]
      ["app.X", "app.Y"]
      [("app.X", ["app.Y"]), ("app.Y", ["app.X"])] "app.X"
      (by decide) (by decide) (by decide) ?_
    have e1 : DepEdge [("app.X", [some "app.Y"]), ("app.Y", [some "app.X"])]
        "app.X" "app.Y" := ⟨⟨[some "app.Y"], by decide, by decide⟩, by decide⟩
    have e2 : DepEdge [("app.X", [some "app.Y"]), ("app.Y", [some "app.X"])]
        "app.Y" "app.X" := ⟨⟨[some "app.X"], by decide, by decide⟩, by decide⟩
    exact Relation.TransGen.tail (Relation.TransGen.single e1) e2
  · rfl

/-- C1: for every work set whose built dependency graph, restricted to the
work set, is acyclic (and whose metadata resolves without error),
`sort_model_strategies` succeeds, and in the ordered work-unit list it
returns, for every EntityType `T` and every computed dependency `D` of `T`
that is itself in the work set, every work unit of `D` appears strictly
before every work unit of `T`: the output splits as `pre ++ suf` with all
of `D`'s units in `pre` (no `T`-labelled unit there) and all of `T`'s
units in `suf` (no `D`-labelled unit there). -/
theorem c1_acyclic_topological_order (env : Env)
    (ws : List (String × List Strategy))
    (mdeps : List (String × List (Option String))) (models : List String)
    (graph : List (String × List String))
    (hbuild : build_model_dependencies env ws = .ok (mdeps, models))
    (hnodup : (mdeps.map Prod.fst).Nodup)
    (hgraph : build_dependency_graph env mdeps = .ok graph)
    (hacyc : AcyclicDeps mdeps)
    (hlook : ∀ m ∈ models, (dictGet ws (modelLabel env m)).isSome = true)
    (hinj : ∀ m ∈ models, ∀ m2 ∈ models,
      modelLabel env m = modelLabel env m2 → m = m2) :
    ∃ out, sort_model_strategies env ws = .ok (out, graph) ∧
      ∀ T deps D, (T, deps) ∈ mdeps → some D ∈ deps → D ∈ models →
        ∃ pre suf, out = pre ++ suf ∧
          (∀ u ∈ pre, u.1 ≠ modelLabel env T) ∧
          (∀ u ∈ suf, u.1 ≠ modelLabel env D) := by
  have hmeq : models = mdeps.map Prod.fst :=
    build_models_eq_keys env ws mdeps models hbuild
  have hsub0 : ∀ it ∈ mdeps, it ∈ mdeps := fun _ h => h
  have hcover0 : ∀ k, k ∈ mdeps.map Prod.fst ↔
      k ∈ ([] : List String) ∨ k ∈ mdeps.map Prod.fst := by
    intro k
    simp
  have hnd0 : (([] : List String) ++ mdeps.map Prod.fst).Nodup := by
    simpa using hnodup
  have hsound0 : SoundPrefix mdeps models [] := by
    intro l1 m l2 hdec deps hmem d hd hdm
    cases l1 with
    | nil => exact List.noConfusion hdec
    | cons a as => exact List.noConfusion hdec
  have hres0 : ∀ m ∈ ([] : List String), Resolvable mdeps m := by
    intro m hm
    cases hm
  obtain ⟨mlist, hloop⟩ := sortLoop_success env mdeps models hmeq hnodup hacyc
    mdeps.length mdeps [] (le_refl _) hsub0 hcover0 hnd0
    hsound0 hres0
  obtain ⟨hcover, hnd, hsound, _⟩ := sortLoop_ok_inv env mdeps models hmeq
    hnodup mdeps.length mdeps [] mlist hsub0 hcover0 hnd0 hsound0 hres0 hloop
  have hmm : ∀ m ∈ mlist, m ∈ models := by
    intro m hm
    rw [hmeq]
    exact (hcover m).mpr hm
  have hmapM : mlist.mapM (strategiesFor ws env) =
      .ok (mlist.map (fun m =>
        ((dictGet ws (modelLabel env m)).getD []).map
          (fun s => (modelLabel env m, s)))) := by
    apply mapM_ok_of_all_ok
    intro m hm
    unfold strategiesFor
    cases hdg : dictGet ws (modelLabel env m) with
    | none =>
      have hs := hlook m (hmm m hm)
      rw [hdg] at hs
      exact Bool.noConfusion hs
    | some ss2 =>
      rfl
  refine ⟨(mlist.map (fun m =>
    ((dictGet ws (modelLabel env m)).getD []).map
      (fun s => (modelLabel env m, s)))).flatten, ?_, ?_⟩
  · unfold sort_model_strategies
    simp only [bind, Except.bind, hbuild, hgraph, hloop, hmapM, pure,
      Except.pure]
  · intro T deps D hTmem hDdep hDmod
    have hTout : T ∈ mlist :=
      (hcover T).mp (List.mem_map.mpr ⟨(T, deps), hTmem, rfl⟩)
    obtain ⟨l1, l2, hdec⟩ := List.append_of_mem hTout
    have hD1 : D ∈ l1 := hsound l1 T l2 hdec deps hTmem D hDdep hDmod
    have hndsplit : (l1 ++ T :: l2).Nodup := hdec ▸ hnd
    have hdisj := (List.nodup_append.mp hndsplit).2.2
    refine ⟨(l1.map (fun m =>
      ((dictGet ws (modelLabel env m)).getD []).map
        (fun s => (modelLabel env m, s)))).flatten,
      ((T :: l2).map (fun m =>
        ((dictGet ws (modelLabel env m)).getD []).map
          (fun s => (modelLabel env m, s)))).flatten, ?_, ?_, ?_⟩
    · rw [hdec, List.map_append, List.flatten_append]
    · intro u hu heq
      rcases List.mem_flatten.mp hu with ⟨grp, hgrp, hug⟩
      rcases List.mem_map.mp hgrp with ⟨m, hml1, hge⟩
      rw [← hge] at hug
      rcases List.mem_map.mp hug with ⟨s, _, hse⟩
      have hu1 : u.1 = modelLabel env m := by rw [← hse]
      have hmml : m ∈ mlist := by
        rw [hdec]
        exact List.mem_append.mpr (Or.inl hml1)
      have hmmod : m ∈ models := hmm m hmml
      have hTmod : T ∈ models := hmm T hTout
      have hmT : m = T := hinj m hmmod T hTmod (by rw [← hu1, heq])
      exact hdisj (hmT ▸ hml1) (List.mem_cons_self _ _)
    · intro u hu heq
      rcases List.mem_flatten.mp hu with ⟨grp, hgrp, hug⟩
      rcases List.mem_map.mp hgrp with ⟨m, hml2, hge⟩
      rw [← hge] at hug
      rcases List.mem_map.mp hug with ⟨s, _, hse⟩
      have hu1 : u.1 = modelLabel env m := by rw [← hse]
      have hmml : m ∈ mlist := by
        rw [hdec]
        exact List.mem_append.mpr (Or.inr hml2)
      have hmmod : m ∈ models := hmm m hmml
      have hmD : m = D := hinj m hmmod D hDmod (by rw [← hu1, heq])
      exact hdisj hD1 (hmD ▸ hml2)

/-- C1 witness: for the two-model work set where `app.B` references
`app.A`, sequencing succeeds and every work unit of `app.A` precedes every
work unit of `app.B` (concretely, the output is `[A, B]`). -/
theorem c1_acyclic_topological_order_witness :
    (∃ out, sort_model_strategies envMain
        [("app.B", [stratPlain]), ("app.A", [stratPlain])] =
        .ok (out, [("app.B", ["app.A"]), ("app.A", [])]) ∧
      ∀ T deps D, (T, deps) ∈ [("app.B", [some "app.A"]), ("app.A", [])] →
        some D ∈ deps → D ∈ ["app.B", "app.A"] →
        ∃ pre suf, out = pre ++ suf ∧
          (∀ u ∈ pre, u.1 ≠ modelLabel envMain T) ∧
          (∀ u ∈ suf, u.1 ≠ modelLabel envMain D)) ∧
    sort_model_strategies envMain
        [("app.B", [stratPlain]), ("app.A", [stratPlain])] =
      .ok ([("app.A", stratPlain), ("app.B", stratPlain)],
        [("app.B", ["app.A"]), ("app.A", [])]) := by
  constructor
  · refine c1_acyclic_topological_order envMain
      [("app.B", [stratPlain]), ("app.A", [stratPlain])]
      [("app.B", [some "app.A"]), ("app.A", [])] ["app.B", "app.A"]
      [("app.B", ["app.A"]), ("app.A", [])]
      (by decide) (by decide) (by decide) ?_ (by decide) (by decide)
    refine acyclic_of_rank (fun t => if t = "app.B" then 1 else 0) ?_
    intro t d hedge
    obtain ⟨⟨deps, hmem, hdep⟩, _⟩ := hedge
    rcases List.mem_cons.mp hmem with h | h
    · injection h with h1 h2
      subst h1
      subst h2
      have h3 := List.mem_singleton.mp hdep
      injection h3 with h4
      subst h4
      decide
    · have h2 := List.mem_singleton.mp h
      injection h2 with h3 h4
      subst h4
      cases hdep
  · rfl

/-- C10 witness: inserting the unresolvable entry `zzz.Missing` between
`app.A` and `app.C` changes nothing — sequencing returns the same result
as without it, and neither the output nor the graph mentions it. -/
theorem c10_unresolvable_entry_witness :
    sort_model_strategies envMain
        [("app.A", [stratPlain]), ("zzz.Missing", [stratPlain]),
          ("app.C", [stratPlain])] =
      sort_model_strategies envMain
        [("app.A", [stratPlain]), ("app.C", [stratPlain])] ∧
    (∀ p ∈ [("app.A", stratPlain), ("app.C", stratPlain)],
      p.1 ≠ "zzz.Missing") ∧
    (∀ kv ∈ [("app.A", ([] : List String)), ("app.C", [])],
      kv.1 ≠ "zzz.Missing") := by
  have h := c10_unresolvable_entry_silently_omitted envMain
    [("app.A", [stratPlain])] [("app.C", [stratPlain])] "zzz.Missing"
    [stratPlain] [("app.A", []), ("app.C", [])] ["app.A", "app.C"]
    (by decide) (by decide) (by decide)
  exact ⟨h.1, h.2 [("app.A", stratPlain), ("app.C", stratPlain)]
    [("app.A", []), ("app.C", [])] (by rfl)⟩

end Devdata
